import Mathlib

/-!
Shallow embedding of the `laizy` crate: one-shot lazy-initialization cells
(`Lazy` in src/lib.rs, `AsyncLazy` in src/asnc.rs, `AwaitInit` in
src/utils.rs), together with theorems about the embedded definitions.

Machine state (`AtomicU8`) is modelled as `Nat`; a `MaybeUninit` slot is
modelled as `Option` (`some` while the slot holds a live object, `none` while
it is uninitialized or moved out of); `FnOnce() -> T` initializers are
modelled by a value `g : F` together with an evaluation map `run : F → T`;
a future initializer `F : Future<Output = T>` is likewise modelled by its
eventual output `run g`.
-/

namespace Laizy

variable {T F W : Type}

/-- Contents of `Lazy<T, F>` (src/lib.rs lines 22-26): `state` is the
`AtomicU8` (0 = uninit, 1 = initializing, 2 = init), `value` models the
`UnsafeCell<MaybeUninit<T>>` slot and `f` the `UnsafeCell<MaybeUninit<F>>`
slot holding the not-yet-run initializer. -/
structure Lazy (T F : Type) where
  state : Nat
  value : Option T
  f : Option F
deriving DecidableEq

/-- `Lazy::new` (src/lib.rs lines 31-37): state 0, empty value slot, stored
initializer. -/
def Lazy.new (f : F) : Lazy T F := ⟨0, none, some f⟩

/-- `Lazy::init` (src/lib.rs lines 41-47): state 2, stored value, empty
initializer slot. -/
def Lazy.init (v : T) : Lazy T F := ⟨2, some v, none⟩

/-- `Lazy::is_uninit` (src/lib.rs lines 51-53). -/
def Lazy.is_uninit (c : Lazy T F) : Bool := c.state == 0

/-- `Lazy::is_init` (src/lib.rs lines 57-59). -/
def Lazy.is_init (c : Lazy T F) : Bool := c.state == 1

/-- `Lazy::has_init` (src/lib.rs lines 63-65). -/
def Lazy.has_init (c : Lazy T F) : Bool := c.state == 2

/-- Sequential (single caller, no interference) run of `Lazy::get`
(src/lib.rs lines 71-97); `Lazy::get_mut` (lines 101-127) is the same
algorithm. Returns (result of the final slot read, cell afterwards, number
of initializer invocations). The CAS winner (state 0) takes the initializer
out of its slot, runs it, writes the value slot and publishes state 2; on
state 1 the caller spins forever (no concurrent writer exists here, so no
result, modelled `none`); on state 2 it reads the value slot directly. -/
def Lazy.getSeq (run : F → T) (c : Lazy T F) : Option T × Lazy T F × Nat :=
  if c.state = 0 then
    let v := c.f.map run
    (v, ⟨2, v, none⟩, 1)
  else if c.state = 1 then
    (none, c, 0)
  else
    (c.value, c, 0)

/-- `Lazy::try_get` (src/lib.rs lines 131-136); `try_get_mut`
(lines 140-145) is identical. The body is a single atomic load plus a slot
read on state 2, so the returned triple also records that the cell is left
unchanged and that the initializer is invoked zero times. -/
def Lazy.try_get (c : Lazy T F) : Option T × Lazy T F × Nat :=
  (if c.state = 2 then c.value else none, c, 0)

/-- `Lazy::into_inner` (src/lib.rs lines 149-171): wraps `self` in
`ManuallyDrop` (so `Drop` never runs) and matches on the state: 0 takes the
initializer out and calls it (one invocation); 1 is the `unreachable!()` arm
(modelled `none`, as is the undefined behavior of `assume_init` on an empty
slot); otherwise it moves the value out (zero invocations). Returns
`some (result, initializer invocations)` on the normal paths. -/
def Lazy.into_inner (run : F → T) (c : Lazy T F) : Option (T × Nat) :=
  if c.state = 0 then c.f.map fun g => (run g, 1)
  else if c.state = 1 then none
  else c.value.map fun v => (v, 0)

/-- Result of `Lazy::try_into_inner`: `ok v` for `Ok(value)`, `err g` for
`Err(initializer)`, `ub` for the `unreachable!()` arm or an `assume_init`
on an empty slot. -/
inductive TryInto (T F : Type) where
  | ok (v : T)
  | err (g : F)
  | ub
deriving DecidableEq

/-- `Lazy::try_into_inner` (src/lib.rs lines 175-197): wraps `self` in
`ManuallyDrop`, then state 0 moves the initializer out and returns it as the
error, state 1 is `unreachable!()`, and otherwise the value is moved out and
returned. The initializer is never invoked (the definition does not even
take `run`). -/
def Lazy.try_into_inner (c : Lazy T F) : TryInto T F :=
  if c.state = 0 then
    match c.f with
    | some g => TryInto.err g
    | none => TryInto.ub
  else if c.state = 1 then TryInto.ub
  else
    match c.value with
    | some v => TryInto.ok v
    | none => TryInto.ub

/-- A slot whose destructor can run during teardown: the initializer slot
`f` or the value slot `value`. -/
inductive Slot where
  | initializer
  | stored
deriving DecidableEq

/-- Observable outcome of one run of a `Drop` impl: whether the spin loop
executed, which slots' destructors ran (in order), and whether the run hit a
panic/`unreachable!()`/`unimplemented!()` arm. -/
structure DropRun where
  waited : Bool
  dropped : List Slot
  aborted : Bool
deriving DecidableEq

/-- `<Lazy<T, F> as Drop>::drop` (src/lib.rs lines 230-246), as a function of
the state loaded on entry: state 0 drops the initializer slot and returns;
state 1 spin-waits until the state leaves 1 (the concurrent winner publishes
2) and then falls through to drop the value slot; any other state drops the
value slot directly. No arm panics or is left unimplemented. -/
def Lazy.dropRun (state : Nat) : DropRun :=
  if state = 0 then ⟨false, [Slot.initializer], false⟩
  else if state = 1 then ⟨true, [Slot.stored], false⟩
  else ⟨false, [Slot.stored], false⟩

/-- Value of `UNINIT` (src/asnc.rs line 20). The source writes
`const UNINIT: u8 = UNINIT;`, a self-referential definition with no value
(rejected by rustc, E0391); 0 is the evident intent, matching the literal
`0` used by the synchronous twin (src/lib.rs) for the same state. -/
def UNINIT : Nat := 0

/-- Value of `INITIALIZING` (src/asnc.rs line 21). The source writes
`const INITIALIZING: u8 = INITIALIZING;`, self-referential like `UNINIT`;
1 is the evident intent. -/
def INITIALIZING : Nat := 1

/-- Value of `INIT` (src/asnc.rs line 22). The source writes
`const INIT: u8 = INIT;`, self-referential like `UNINIT`; 2 is the evident
intent. -/
def INIT : Nat := 2

/-- Contents of `AsyncLazy<T, F>` (src/asnc.rs lines 12-17): like `Lazy`
plus the `AtomicWaker` slot, modelled as `Option W` (`some w` while a waker
is registered). -/
structure AsyncLazy (W T F : Type) where
  state : Nat
  waker : Option W
  value : Option T
  f : Option F
deriving DecidableEq

/-- `AsyncLazy::new` (src/asnc.rs lines 27-34). -/
def AsyncLazy.new (f : F) : AsyncLazy W T F := ⟨UNINIT, none, none, some f⟩

/-- `AsyncLazy::init` (src/asnc.rs lines 38-45). -/
def AsyncLazy.init (v : T) : AsyncLazy W T F := ⟨INIT, none, some v, none⟩

/-- `AsyncLazy::is_uninit` (src/asnc.rs lines 49-51). -/
def AsyncLazy.is_uninit (c : AsyncLazy W T F) : Bool := c.state == UNINIT

/-- `AsyncLazy::is_init` (src/asnc.rs lines 55-57). -/
def AsyncLazy.is_init (c : AsyncLazy W T F) : Bool := c.state == INITIALIZING

/-- `AsyncLazy::has_init` (src/asnc.rs lines 61-63): note the source
compares with `> INITIALIZING`, not `== INIT`. -/
def AsyncLazy.has_init (c : AsyncLazy W T F) : Bool :=
  INITIALIZING < c.state

/-- Sequential run of `AsyncLazy::get` (src/asnc.rs lines 69-96);
`get_mut` (lines 100-127) is the same algorithm. The CAS winner takes the
initializer future out, awaits it, writes the value slot, publishes `INIT`
and calls `waker.wake()` (which takes any registered waker out of its slot);
a caller that observes `INITIALIZING` awaits `AwaitInit`, which never
completes without a concurrent writer (modelled `none`); on `INIT` it reads
the value slot. Returns (result, cell afterwards, initializer runs). -/
def AsyncLazy.getSeq (run : F → T) (c : AsyncLazy W T F) :
    Option T × AsyncLazy W T F × Nat :=
  if c.state = UNINIT then
    let v := c.f.map run
    (v, ⟨INIT, none, v, none⟩, 1)
  else if c.state = INITIALIZING then
    (none, c, 0)
  else
    (c.value, c, 0)

/-- `AsyncLazy::try_get` (src/asnc.rs lines 131-136); `try_get_mut`
(lines 140-145) is identical. Single atomic load, slot read on `INIT`,
no mutation, no initializer invocation. -/
def AsyncLazy.try_get (c : AsyncLazy W T F) :
    Option T × AsyncLazy W T F × Nat :=
  (if c.state = INIT then c.value else none, c, 0)

/-- Sequential run of `AsyncLazy::into_inner` (src/asnc.rs lines 149-172):
wraps `self` in `ManuallyDrop`, then `UNINIT` awaits the initializer future
and returns its output (one run); `INITIALIZING` awaits `AwaitInit`, which
never completes without a concurrent writer (modelled `none`); otherwise the
value is moved out. The concurrent `INITIALIZING` case is treated separately
by the `IntoInner` transition system below. -/
def AsyncLazy.into_inner (run : F → T) (c : AsyncLazy W T F) :
    Option (T × Nat) :=
  if c.state = UNINIT then c.f.map fun g => (run g, 1)
  else if c.state = INITIALIZING then none
  else c.value.map fun v => (v, 0)

/-- `<AsyncLazy<T, F> as Drop>::drop` (src/asnc.rs lines 182-198), as a
function of the state loaded on entry: `UNINIT` drops the initializer slot
and returns; `INITIALIZING` spin-waits until the state leaves
`INITIALIZING` and then falls through to drop the value slot; any other
state drops the value slot directly. No arm panics or is left
unimplemented. -/
def AsyncLazy.dropRun (state : Nat) : DropRun :=
  if state = UNINIT then ⟨false, [Slot.initializer], false⟩
  else if state = INITIALIZING then ⟨true, [Slot.stored], false⟩
  else ⟨false, [Slot.stored], false⟩

/-- Forgetting the waker slot turns an `AsyncLazy` into a `Lazy` with the
same state and slots. -/
def AsyncLazy.toSync (c : AsyncLazy W T F) : Lazy T F :=
  ⟨c.state, c.value, c.f⟩

/-- Result of a `Future::poll` call with unit output. -/
inductive PollRes where
  | ready
  | pending
deriving DecidableEq

/-- The `AwaitInit` future (src/utils.rs lines 9-13) holds references to the
cell's `state` and `waker`, which are passed to `poll` explicitly here, so
only the `target` field is data. -/
structure AwaitInit where
  target : Nat
deriving DecidableEq

/-- `<AwaitInit as Future>::poll` (src/utils.rs lines 30-38): first
register the calling context's waker in the shared single slot (overwriting
whatever was registered, `prev`), then load `state` with acquire ordering;
the result is `ready` if it equals `target` and `pending` otherwise.
Returns (poll result, waker slot after the call). -/
def AwaitInit.poll (a : AwaitInit) (state : Nat) (prev : Option W) (cx : W) :
    PollRes × Option W :=
  let registered : Option W := some cx
  ((if state = a.target then PollRes.ready else PollRes.pending), registered)

/-! ### Interleaving model of concurrent `Lazy::get` (src/lib.rs lines 71-97)

`n` callers share one freshly constructed cell and each runs `get` to
completion. Every constructor of `Step` is one atomic action of the source:
the compare-exchange (one constructor per outcome), the winner's take of the
initializer slot, the run-and-write of the value slot, the release store of
state 2, one spin-loop exit, and the final `assume_init_ref` slot reads. -/

/-- Program counter of one caller inside `Lazy::get`. -/
inductive TStat (T F : Type) where
  | start
  | claim1
  | claim2 (g : F)
  | claim3
  | claim4
  | wait
  | readyL
  | doneW (v : T)
  | doneL (v : T)
deriving DecidableEq

/-- `true` on the statuses a caller can be in after (and only after) it won
the `compare_exchange(0, 1, …)` claim. -/
def TStat.claimerB : TStat T F → Bool
  | .claim1 | .claim2 _ | .claim3 | .claim4 | .doneW _ => true
  | _ => false

/-- `true` once the caller has returned from `get`. -/
def TStat.isDone : TStat T F → Bool
  | .doneW _ | .doneL _ => true
  | _ => false

/-- The reference returned by a finished caller, if any. -/
def TStat.result : TStat T F → Option T
  | .doneW v => some v
  | .doneL v => some v
  | _ => none

/-- Configuration of the interleaving model: the shared cell fields of
`Lazy`, a ghost count of initializer invocations, and each caller's program
counter. -/
structure Cfg (n : Nat) (T F : Type) where
  state : Nat
  value : Option T
  f : Option F
  runs : Nat
  ts : Fin n → TStat T F

/-- Freshly constructed cell (`Lazy::new f₀`) with every caller about to
enter `get`. -/
def Cfg.fresh (n : Nat) (f₀ : F) : Cfg n T F :=
  ⟨0, none, some f₀, 0, fun _ => TStat.start⟩

/-- One atomic action of one caller running `Lazy::get`. -/
inductive Step (run : F → T) : Cfg n T F → Cfg n T F → Prop where
  | casWin (c : Cfg n T F) (i : Fin n) :
      c.ts i = .start → c.state = 0 →
      Step run c { c with state := 1, ts := Function.update c.ts i .claim1 }
  | casLoseBusy (c : Cfg n T F) (i : Fin n) :
      c.ts i = .start → c.state = 1 →
      Step run c { c with ts := Function.update c.ts i .wait }
  | casLoseDone (c : Cfg n T F) (i : Fin n) :
      c.ts i = .start → c.state = 2 →
      Step run c { c with ts := Function.update c.ts i .readyL }
  | takeF (c : Cfg n T F) (i : Fin n) (g : F) :
      c.ts i = .claim1 → c.f = some g →
      Step run c { c with f := none, ts := Function.update c.ts i (.claim2 g) }
  | runWrite (c : Cfg n T F) (i : Fin n) (g : F) :
      c.ts i = .claim2 g →
      Step run c { c with value := some (run g), runs := c.runs + 1, ts := Function.update c.ts i .claim3 }
  | publish (c : Cfg n T F) (i : Fin n) :
      c.ts i = .claim3 →
      Step run c { c with state := 2, ts := Function.update c.ts i .claim4 }
  | spinExit (c : Cfg n T F) (i : Fin n) :
      c.ts i = .wait → c.state ≠ 1 →
      Step run c { c with ts := Function.update c.ts i .readyL }
  | readW (c : Cfg n T F) (i : Fin n) (v : T) :
      c.ts i = .claim4 → c.value = some v →
      Step run c { c with ts := Function.update c.ts i (.doneW v) }
  | readL (c : Cfg n T F) (i : Fin n) (v : T) :
      c.ts i = .readyL → c.value = some v →
      Step run c { c with ts := Function.update c.ts i (.doneL v) }

/-- Interleaved execution: reflexive-transitive closure of `Step`. -/
def Reach (run : F → T) : Cfg n T F → Cfg n T F → Prop :=
  Relation.ReflTransGen (Step run)

/-- Per-caller coherence between a caller's program counter and the shared
cell, for an execution that started from `Cfg.fresh n f₀`. -/
def sOK (run : F → T) (f₀ : F) (c : Cfg n T F) : TStat T F → Prop
  | .start => True
  | .claim1 => c.state = 1 ∧ c.f = some f₀ ∧ c.value = none ∧ c.runs = 0
  | .claim2 g => g = f₀ ∧ c.state = 1 ∧ c.f = none ∧ c.value = none ∧ c.runs = 0
  | .claim3 => c.state = 1 ∧ c.f = none ∧ c.value = some (run f₀) ∧ c.runs = 1
  | .claim4 => c.state = 2
  | .wait => 1 ≤ c.state
  | .readyL => c.state = 2
  | .doneW v => c.state = 2 ∧ v = run f₀
  | .doneL v => c.state = 2 ∧ v = run f₀

/-- Inductive invariant of the interleaving model. -/
structure Inv (run : F → T) (f₀ : F) (c : Cfg n T F) : Prop where
  stLe : c.state ≤ 2
  st0 : c.state = 0 → c.f = some f₀ ∧ c.value = none ∧ c.runs = 0
  st2 : c.state = 2 → c.f = none ∧ c.value = some (run f₀) ∧ c.runs = 1
  tOK : ∀ i, sOK run f₀ c (c.ts i)
  uniq : ∀ i j, (c.ts i).claimerB → (c.ts j).claimerB → i = j

/-! ### Interleaving model of concurrent `AsyncLazy::get` (src/asnc.rs lines 69-96)

Same shape as the synchronous model, except that a loser runs the
`AwaitInit` poll protocol (src/utils.rs lines 30-38) instead of spinning:
register the task's waker in the shared single slot, load the state, and
either finish or park until the winner's `waker.wake()` (src/asnc.rs
line 80) reschedules it. The waker slot holds the registered task's index. -/

/-- Program counter of one task inside `AsyncLazy::get`. -/
inductive ATStat (T F : Type) where
  | start
  | claim1
  | claim2 (g : F)
  | claim3
  | claim4
  | claim5
  | poll1
  | poll2
  | parked
  | readyL
  | doneW (v : T)
  | doneL (v : T)
deriving DecidableEq

/-- `true` on the statuses a task can be in after (and only after) it won
the `compare_exchange(UNINIT, INITIALIZING, …)` claim. -/
def ATStat.claimerB : ATStat T F → Bool
  | .claim1 | .claim2 _ | .claim3 | .claim4 | .claim5 | .doneW _ => true
  | _ => false

/-- `true` once the task has returned from `get`. -/
def ATStat.isDone : ATStat T F → Bool
  | .doneW _ | .doneL _ => true
  | _ => false

/-- Effect of `AtomicWaker::wake` on the task whose waker was registered:
a parked task is rescheduled (polled again); a task that is not parked is
unaffected. -/
def wakeTS : ATStat T F → ATStat T F
  | .parked => .poll1
  | s => s

/-- Configuration of the asynchronous interleaving model: the shared
`AsyncLazy` fields, a ghost count of initializer runs, and each task's
program counter. -/
structure ACfg (n : Nat) (T F : Type) where
  state : Nat
  waker : Option (Fin n)
  value : Option T
  f : Option F
  runs : Nat
  ts : Fin n → ATStat T F

/-- Freshly constructed cell (`AsyncLazy::new f₀`) with every task about to
enter `get`. -/
def ACfg.fresh (n : Nat) (f₀ : F) : ACfg n T F :=
  ⟨UNINIT, none, none, some f₀, 0, fun _ => ATStat.start⟩

/-- One atomic action of one task running `AsyncLazy::get`. -/
inductive AStep (run : F → T) : ACfg n T F → ACfg n T F → Prop where
  | casWin (c : ACfg n T F) (i : Fin n) :
      c.ts i = .start → c.state = UNINIT →
      AStep run c { c with state := INITIALIZING, ts := Function.update c.ts i .claim1 }
  | casLoseBusy (c : ACfg n T F) (i : Fin n) :
      c.ts i = .start → c.state = INITIALIZING →
      AStep run c { c with ts := Function.update c.ts i .poll1 }
  | casLoseDone (c : ACfg n T F) (i : Fin n) :
      c.ts i = .start → c.state = INIT →
      AStep run c { c with ts := Function.update c.ts i .readyL }
  | takeF (c : ACfg n T F) (i : Fin n) (g : F) :
      c.ts i = .claim1 → c.f = some g →
      AStep run c { c with f := none, ts := Function.update c.ts i (.claim2 g) }
  | awaitWrite (c : ACfg n T F) (i : Fin n) (g : F) :
      c.ts i = .claim2 g →
      AStep run c { c with value := some (run g), runs := c.runs + 1, ts := Function.update c.ts i .claim3 }
  | publish (c : ACfg n T F) (i : Fin n) :
      c.ts i = .claim3 →
      AStep run c { c with state := INIT, ts := Function.update c.ts i .claim4 }
  | wakeNone (c : ACfg n T F) (i : Fin n) :
      c.ts i = .claim4 → c.waker = none →
      AStep run c { c with ts := Function.update c.ts i .claim5 }
  | wakeSome (c : ACfg n T F) (i j : Fin n) :
      c.ts i = .claim4 → c.waker = some j →
      AStep run c { c with waker := none, ts := Function.update (Function.update c.ts j (wakeTS (c.ts j))) i .claim5 }
  | register (c : ACfg n T F) (i : Fin n) :
      c.ts i = .poll1 →
      AStep run c { c with waker := some i, ts := Function.update c.ts i .poll2 }
  | checkReady (c : ACfg n T F) (i : Fin n) :
      c.ts i = .poll2 → c.state = INIT →
      AStep run c { c with ts := Function.update c.ts i .readyL }
  | checkPend (c : ACfg n T F) (i : Fin n) :
      c.ts i = .poll2 → c.state ≠ INIT →
      AStep run c { c with ts := Function.update c.ts i .parked }
  | readW (c : ACfg n T F) (i : Fin n) (v : T) :
      c.ts i = .claim5 → c.value = some v →
      AStep run c { c with ts := Function.update c.ts i (.doneW v) }
  | readL (c : ACfg n T F) (i : Fin n) (v : T) :
      c.ts i = .readyL → c.value = some v →
      AStep run c { c with ts := Function.update c.ts i (.doneL v) }

/-- Interleaved asynchronous execution. -/
def AReach (run : F → T) : ACfg n T F → ACfg n T F → Prop :=
  Relation.ReflTransGen (AStep run)

/-- Per-task coherence between a task's program counter and the shared
cell, for an execution that started from `ACfg.fresh n f₀`. -/
def asOK (run : F → T) (f₀ : F) (c : ACfg n T F) : ATStat T F → Prop
  | .start => True
  | .claim1 => c.state = 1 ∧ c.f = some f₀ ∧ c.value = none ∧ c.runs = 0
  | .claim2 g => g = f₀ ∧ c.state = 1 ∧ c.f = none ∧ c.value = none ∧ c.runs = 0
  | .claim3 => c.state = 1 ∧ c.f = none ∧ c.value = some (run f₀) ∧ c.runs = 1
  | .claim4 => c.state = 2
  | .claim5 => c.state = 2
  | .poll1 => 1 ≤ c.state
  | .poll2 => 1 ≤ c.state
  | .parked => 1 ≤ c.state
  | .readyL => c.state = 2
  | .doneW v => c.state = 2 ∧ v = run f₀
  | .doneL v => c.state = 2 ∧ v = run f₀

/-- Inductive invariant of the asynchronous interleaving model. -/
structure AInv (run : F → T) (f₀ : F) (c : ACfg n T F) : Prop where
  stLe : c.state ≤ 2
  st0 : c.state = 0 → c.f = some f₀ ∧ c.value = none ∧ c.runs = 0 ∧ c.waker = none
  st2 : c.state = 2 → c.f = none ∧ c.value = some (run f₀) ∧ c.runs = 1
  tOK : ∀ i, asOK run f₀ c (c.ts i)
  uniq : ∀ i j, (c.ts i).claimerB → (c.ts j).claimerB → i = j
  wOK : ∀ j, c.waker = some j → (c.ts j).claimerB = false

/-! ### Model of `AsyncLazy::into_inner` called mid-initialization
(src/asnc.rs lines 149-172, `INITIALIZING` arm at lines 160-164)

Two concurrent parties: `p`, the winner of an earlier `get` claim that is
still running the initializer and will write, publish and wake; and `b`,
the `into_inner` caller whose `state.load(Relaxed)` returned
`INITIALIZING`, so it awaits `AwaitInit(INIT)` and then moves the value
out of the slot. `into_inner` wraps the cell in `ManuallyDrop`
(src/asnc.rs line 150), so no transition of this system runs the `Drop`
teardown; the ghost counter `frees` counts every event that consumes the
value slot (a move-out or a destructor call), and the only transition that
touches it is `b`'s single move-out. `v₀` is the value the winner's
initializer produces. -/

/-- Program counter of the winner task finishing initialization. -/
inductive PStat where
  | run1
  | wrote
  | pubd
  | woke
deriving DecidableEq

/-- Program counter of the `into_inner` caller inside the `INITIALIZING`
arm. -/
inductive BStat (T : Type) where
  | poll1
  | poll2
  | parked
  | ready
  | done (v : T)
deriving DecidableEq

/-- Effect of `AtomicWaker::wake` on the `into_inner` caller. -/
def wakeB : BStat T → BStat T
  | .parked => .poll1
  | s => s

/-- Value-slot consumption events attributable to the `into_inner` caller's
current program counter. -/
def bFrees : BStat T → Nat
  | .done _ => 1
  | _ => 0

/-- Configuration: shared cell state/waker/value slot, ghost `frees`
counter, and the two program counters. -/
structure ICfg (T : Type) where
  state : Nat
  waker : Bool
  value : Option T
  frees : Nat
  p : PStat
  b : BStat T
deriving DecidableEq

/-- Entry configuration: the `into_inner` caller has just observed
`INITIALIZING`; the winner holds the initializer (its slot take happened at
claim time) and has not yet written the value. -/
def ICfg.start : ICfg T :=
  ⟨INITIALIZING, false, none, 0, PStat.run1, BStat.poll1⟩

/-- One atomic action of either party. -/
inductive IStep (v₀ : T) : ICfg T → ICfg T → Prop where
  | pWrite (c : ICfg T) :
      c.p = .run1 → IStep v₀ c { c with value := some v₀, p := .wrote }
  | pPub (c : ICfg T) :
      c.p = .wrote → IStep v₀ c { c with state := INIT, p := .pubd }
  | pWake (c : ICfg T) :
      c.p = .pubd → IStep v₀ c { c with waker := false, p := .woke, b := if c.waker then wakeB c.b else c.b }
  | bReg (c : ICfg T) :
      c.b = .poll1 → IStep v₀ c { c with waker := true, b := .poll2 }
  | bCheckR (c : ICfg T) :
      c.b = .poll2 → c.state = INIT → IStep v₀ c { c with b := .ready }
  | bCheckP (c : ICfg T) :
      c.b = .poll2 → c.state ≠ INIT → IStep v₀ c { c with b := .parked }
  | bTake (c : ICfg T) (v : T) :
      c.b = .ready → c.value = some v →
      IStep v₀ c { c with value := none, frees := c.frees + 1, b := .done v }

/-- Interleaved execution of the two parties. -/
def IReach (v₀ : T) : ICfg T → ICfg T → Prop :=
  Relation.ReflTransGen (IStep v₀)

/-- Inductive invariant of the `into_inner` model. -/
structure IInv (v₀ : T) (c : ICfg T) : Prop where
  stv : c.state = 1 ∨ c.state = 2
  hp1 : c.state = 1 ↔ (c.p = .run1 ∨ c.p = .wrote)
  hrun : c.p = .run1 → c.value = none ∧ c.b ≠ .ready ∧ ∀ v, c.b ≠ .done v
  hwrote : c.p = .wrote → c.value = some v₀ ∧ c.b ≠ .ready ∧ ∀ v, c.b ≠ .done v
  hval : c.p ≠ .run1 →
    ((∃ v, c.b = .done v) ∧ c.value = none) ∨
      (c.value = some v₀ ∧ ∀ v, c.b ≠ .done v)
  hfrees : c.frees = bFrees c.b
  hbdone : ∀ v, c.b = .done v → v = v₀ ∧ c.state = 2
  hbready : c.b = .ready → c.state = 2

/-! ### Sequentially reachable cells

`Lazy::into_inner` and `Lazy::try_into_inner` take `self` by value, so the
caller holds unique ownership and no `get` can be running concurrently. The
cells such a caller can hold are exactly those produced by a constructor
followed by completed API calls; only `get`/`get_mut` mutate the cell. -/

/-- Cell states reachable through uniquely-owned, sequential use of the
synchronous API: construction (`Lazy::new` or `Lazy::init`) followed by any
number of completed `get`/`get_mut` calls; `try_get`/`try_get_mut` and the
`is_uninit`/`is_init`/`has_init` queries perform no writes. -/
inductive SeqReach (run : F → T) : Lazy T F → Prop where
  | new (f : F) : SeqReach run (Lazy.new f)
  | init (v : T) : SeqReach run (Lazy.init v)
  | get (c : Lazy T F) : SeqReach run c → SeqReach run (c.getSeq run).2.1

/-! ### Concrete executions used to certify the transition-system theorems -/

/-- A concrete initializer: `|| 7`. -/
def r7 : Unit → Nat := fun _ => 7

/-- Single-caller synchronous run, stage 0: fresh cell. -/
def wCfg0 : Cfg 1 Nat Unit := Cfg.fresh 1 ()

/-- Stage 1: the caller won the claim. -/
def wCfg1 : Cfg 1 Nat Unit := ⟨1, none, some (), 0, fun _ => TStat.claim1⟩

/-- Stage 2: the caller took the initializer out of its slot. -/
def wCfg2 : Cfg 1 Nat Unit := ⟨1, none, none, 0, fun _ => TStat.claim2 ()⟩

/-- Stage 3: the caller ran the initializer and wrote the value slot. -/
def wCfg3 : Cfg 1 Nat Unit := ⟨1, some 7, none, 1, fun _ => TStat.claim3⟩

/-- Stage 4: the caller published state 2. -/
def wCfg4 : Cfg 1 Nat Unit := ⟨2, some 7, none, 1, fun _ => TStat.claim4⟩

/-- Stage 5: the caller read the slot and returned. -/
def wCfg5 : Cfg 1 Nat Unit := ⟨2, some 7, none, 1, fun _ => TStat.doneW 7⟩

/-- `into_inner`-model run, stage 1: winner wrote the value slot. -/
def iCfg1 : ICfg Nat := ⟨1, false, some 7, 0, PStat.wrote, BStat.poll1⟩

/-- Stage 2: winner published `INIT`. -/
def iCfg2 : ICfg Nat := ⟨2, false, some 7, 0, PStat.pubd, BStat.poll1⟩

/-- Stage 3: the `into_inner` caller registered its waker. -/
def iCfg3 : ICfg Nat := ⟨2, true, some 7, 0, PStat.pubd, BStat.poll2⟩

/-- Stage 4: the `into_inner` caller observed `INIT`. -/
def iCfg4 : ICfg Nat := ⟨2, true, some 7, 0, PStat.pubd, BStat.ready⟩

/-- Stage 5: the `into_inner` caller moved the value out. -/
def iCfg5 : ICfg Nat := ⟨2, true, none, 1, PStat.pubd, BStat.done 7⟩

theorem inv_fresh_sync (run : F → T) (f₀ : F) (n : Nat) :
    Inv run f₀ (Cfg.fresh n f₀ : Cfg n T F) := by
  refine ⟨Nat.zero_le 2, fun _ => ⟨rfl, rfl, rfl⟩,
    fun h2 => absurd h2 (by decide : ¬(0:Nat) = 2),
    fun i => trivial, fun i j hi hj => absurd hi Bool.false_ne_true⟩

theorem inv_all_start_sync {run : F → T} {f₀ : F} {c : Cfg n T F}
    (h : Inv run f₀ c) (hst : c.state = 0) : ∀ m, c.ts m = TStat.start := by
  intro m
  have hm := h.tOK m
  cases hms : c.ts m with
  | start => rfl
  | claim1 => rw [hms] at hm; have : c.state = 1 := hm.1; omega
  | claim2 g => rw [hms] at hm; have : c.state = 1 := hm.2.1; omega
  | claim3 => rw [hms] at hm; have : c.state = 1 := hm.1; omega
  | claim4 => rw [hms] at hm; have : c.state = 2 := hm; omega
  | wait => rw [hms] at hm; have : 1 ≤ c.state := hm; omega
  | readyL => rw [hms] at hm; have : c.state = 2 := hm; omega
  | doneW v => rw [hms] at hm; have : c.state = 2 := hm.1; omega
  | doneL v => rw [hms] at hm; have : c.state = 2 := hm.1; omega

theorem inv_step_sync {run : F → T} {f₀ : F} {c c' : Cfg n T F}
    (h : Inv run f₀ c) (hs : Step run c c') : Inv run f₀ c' := by
  cases hs with
  | casWin i hi hst =>
      obtain ⟨hf, hv, hr⟩ := h.st0 hst
      have hall := inv_all_start_sync h hst
      refine ⟨(by decide : (1:Nat) ≤ 2), fun h0 => absurd h0 (by decide : ¬(1:Nat) = 0),
        fun h2 => absurd h2 (by decide : ¬(1:Nat) = 2), fun j => ?_, fun j k hj hk => ?_⟩
      · by_cases hji : j = i
        · rw [hji]; simp only [Function.update_same]
          exact ⟨rfl, hf, hv, hr⟩
        · simp only [Function.update_noteq hji, hall j]
          trivial
      · by_cases hji : j = i
        · by_cases hki : k = i
          · rw [hji, hki]
          · simp only [Function.update_noteq hki, hall k] at hk
            exact absurd hk Bool.false_ne_true
        · simp only [Function.update_noteq hji, hall j] at hj
          exact absurd hj Bool.false_ne_true
  | casLoseBusy i hi hst =>
      refine ⟨h.stLe, h.st0, h.st2, fun j => ?_, fun j k hj hk => ?_⟩
      · by_cases hji : j = i
        · rw [hji]; simp only [Function.update_same]
          exact hst.ge
        · simp only [Function.update_noteq hji]
          exact h.tOK j
      · by_cases hji : j = i
        · rw [hji] at hj; simp only [Function.update_same] at hj
          exact absurd hj Bool.false_ne_true
        · by_cases hki : k = i
          · rw [hki] at hk; simp only [Function.update_same] at hk
            exact absurd hk Bool.false_ne_true
          · simp only [Function.update_noteq hji] at hj
            simp only [Function.update_noteq hki] at hk
            exact h.uniq j k hj hk
  | casLoseDone i hi hst =>
      refine ⟨h.stLe, h.st0, h.st2, fun j => ?_, fun j k hj hk => ?_⟩
      · by_cases hji : j = i
        · rw [hji]; simp only [Function.update_same]
          exact hst
        · simp only [Function.update_noteq hji]
          exact h.tOK j
      · by_cases hji : j = i
        · rw [hji] at hj; simp only [Function.update_same] at hj
          exact absurd hj Bool.false_ne_true
        · by_cases hki : k = i
          · rw [hki] at hk; simp only [Function.update_same] at hk
            exact absurd hk Bool.false_ne_true
          · simp only [Function.update_noteq hji] at hj
            simp only [Function.update_noteq hki] at hk
            exact h.uniq j k hj hk
  | takeF i g hi hf =>
      have hok := h.tOK i
      rw [hi] at hok
      obtain ⟨hst, hfi, hv, hr⟩ := hok
      have hg : g = f₀ := by
        rw [hfi] at hf
        exact (Option.some.inj hf).symm
      have hb : (c.ts i).claimerB = true := by rw [hi]; rfl
      refine ⟨h.stLe, ?_, ?_, fun j => ?_, fun j k hj hk => ?_⟩
      · intro h0
        have h0' : c.state = 0 := h0
        omega
      · intro h2
        have h2' : c.state = 2 := h2
        omega
      · by_cases hji : j = i
        · rw [hji]; simp only [Function.update_same]
          exact ⟨hg, hst, rfl, hv, hr⟩
        · simp only [Function.update_noteq hji]
          have hj := h.tOK j
          cases hjs : c.ts j with
          | start => trivial
          | wait => rw [hjs] at hj; exact hj
          | claim1 => exact absurd (h.uniq j i (by rw [hjs]; rfl) hb) hji
          | claim2 g2 => exact absurd (h.uniq j i (by rw [hjs]; rfl) hb) hji
          | claim3 => exact absurd (h.uniq j i (by rw [hjs]; rfl) hb) hji
          | claim4 => rw [hjs] at hj; have h2 : c.state = 2 := hj; omega
          | readyL => rw [hjs] at hj; have h2 : c.state = 2 := hj; omega
          | doneW v2 => rw [hjs] at hj; have h2 : c.state = 2 := hj.1; omega
          | doneL v2 => rw [hjs] at hj; have h2 : c.state = 2 := hj.1; omega
      · by_cases hji : j = i
        · by_cases hki : k = i
          · rw [hji, hki]
          · simp only [Function.update_noteq hki] at hk
            exact absurd (h.uniq k i hk hb) hki
        · simp only [Function.update_noteq hji] at hj
          exact absurd (h.uniq j i hj hb) hji
  | runWrite i g hi =>
      have hok := h.tOK i
      rw [hi] at hok
      obtain ⟨hg, hst, hfi, hv, hr⟩ := hok
      have hb : (c.ts i).claimerB = true := by rw [hi]; rfl
      refine ⟨h.stLe, ?_, ?_, fun j => ?_, fun j k hj hk => ?_⟩
      · intro h0
        have h0' : c.state = 0 := h0
        omega
      · intro h2
        have h2' : c.state = 2 := h2
        omega
      · by_cases hji : j = i
        · rw [hji]; simp only [Function.update_same]
          exact ⟨hst, hfi, by rw [hg], by rw [hr]⟩
        · simp only [Function.update_noteq hji]
          have hj := h.tOK j
          cases hjs : c.ts j with
          | start => trivial
          | wait => rw [hjs] at hj; exact hj
          | claim1 => exact absurd (h.uniq j i (by rw [hjs]; rfl) hb) hji
          | claim2 g2 => exact absurd (h.uniq j i (by rw [hjs]; rfl) hb) hji
          | claim3 => exact absurd (h.uniq j i (by rw [hjs]; rfl) hb) hji
          | claim4 => rw [hjs] at hj; have h2 : c.state = 2 := hj; omega
          | readyL => rw [hjs] at hj; have h2 : c.state = 2 := hj; omega
          | doneW v2 => rw [hjs] at hj; have h2 : c.state = 2 := hj.1; omega
          | doneL v2 => rw [hjs] at hj; have h2 : c.state = 2 := hj.1; omega
      · by_cases hji : j = i
        · by_cases hki : k = i
          · rw [hji, hki]
          · simp only [Function.update_noteq hki] at hk
            exact absurd (h.uniq k i hk hb) hki
        · simp only [Function.update_noteq hji] at hj
          exact absurd (h.uniq j i hj hb) hji
  | publish i hi =>
      have hok := h.tOK i
      rw [hi] at hok
      obtain ⟨hst, hfi, hv, hr⟩ := hok
      have hb : (c.ts i).claimerB = true := by rw [hi]; rfl
      refine ⟨(by decide : (2:Nat) ≤ 2), fun h0 => absurd h0 (by decide : ¬(2:Nat) = 0),
        fun _ => ⟨hfi, hv, hr⟩, fun j => ?_, fun j k hj hk => ?_⟩
      · by_cases hji : j = i
        · rw [hji]; simp only [Function.update_same]
          exact rfl
        · simp only [Function.update_noteq hji]
          have hj := h.tOK j
          cases hjs : c.ts j with
          | start => trivial
          | wait => exact (by decide : (1:Nat) ≤ 2)
          | claim1 => exact absurd (h.uniq j i (by rw [hjs]; rfl) hb) hji
          | claim2 g2 => exact absurd (h.uniq j i (by rw [hjs]; rfl) hb) hji
          | claim3 => exact absurd (h.uniq j i (by rw [hjs]; rfl) hb) hji
          | claim4 => rw [hjs] at hj; have h2 : c.state = 2 := hj; omega
          | readyL => rw [hjs] at hj; have h2 : c.state = 2 := hj; omega
          | doneW v2 => rw [hjs] at hj; have h2 : c.state = 2 := hj.1; omega
          | doneL v2 => rw [hjs] at hj; have h2 : c.state = 2 := hj.1; omega
      · by_cases hji : j = i
        · by_cases hki : k = i
          · rw [hji, hki]
          · simp only [Function.update_noteq hki] at hk
            exact absurd (h.uniq k i hk hb) hki
        · simp only [Function.update_noteq hji] at hj
          exact absurd (h.uniq j i hj hb) hji
  | spinExit i hi hst =>
      have hok := h.tOK i
      rw [hi] at hok
      have h1 : 1 ≤ c.state := hok
      have hle := h.stLe
      have hst2 : c.state = 2 := by omega
      refine ⟨h.stLe, h.st0, h.st2, fun j => ?_, fun j k hj hk => ?_⟩
      · by_cases hji : j = i
        · rw [hji]; simp only [Function.update_same]
          exact hst2
        · simp only [Function.update_noteq hji]
          exact h.tOK j
      · by_cases hji : j = i
        · rw [hji] at hj; simp only [Function.update_same] at hj
          exact absurd hj Bool.false_ne_true
        · by_cases hki : k = i
          · rw [hki] at hk; simp only [Function.update_same] at hk
            exact absurd hk Bool.false_ne_true
          · simp only [Function.update_noteq hji] at hj
            simp only [Function.update_noteq hki] at hk
            exact h.uniq j k hj hk
  | readW i v hi hv =>
      have hok := h.tOK i
      rw [hi] at hok
      have hst2 : c.state = 2 := hok
      obtain ⟨hfi, hval, hr⟩ := h.st2 hst2
      have hveq : v = run f₀ := by
        rw [hval] at hv
        exact (Option.some.inj hv).symm
      have hb : (c.ts i).claimerB = true := by rw [hi]; rfl
      refine ⟨h.stLe, h.st0, h.st2, fun j => ?_, fun j k hj hk => ?_⟩
      · by_cases hji : j = i
        · rw [hji]; simp only [Function.update_same]
          exact ⟨hst2, hveq⟩
        · simp only [Function.update_noteq hji]
          exact h.tOK j
      · by_cases hji : j = i
        · by_cases hki : k = i
          · rw [hji, hki]
          · simp only [Function.update_noteq hki] at hk
            exact absurd (h.uniq k i hk hb) hki
        · simp only [Function.update_noteq hji] at hj
          exact absurd (h.uniq j i hj hb) hji
  | readL i v hi hv =>
      have hok := h.tOK i
      rw [hi] at hok
      have hst2 : c.state = 2 := hok
      obtain ⟨hfi, hval, hr⟩ := h.st2 hst2
      have hveq : v = run f₀ := by
        rw [hval] at hv
        exact (Option.some.inj hv).symm
      refine ⟨h.stLe, h.st0, h.st2, fun j => ?_, fun j k hj hk => ?_⟩
      · by_cases hji : j = i
        · rw [hji]; simp only [Function.update_same]
          exact ⟨hst2, hveq⟩
        · simp only [Function.update_noteq hji]
          exact h.tOK j
      · by_cases hji : j = i
        · rw [hji] at hj; simp only [Function.update_same] at hj
          exact absurd hj Bool.false_ne_true
        · by_cases hki : k = i
          · rw [hki] at hk; simp only [Function.update_same] at hk
            exact absurd hk Bool.false_ne_true
          · simp only [Function.update_noteq hji] at hj
            simp only [Function.update_noteq hki] at hk
            exact h.uniq j k hj hk

theorem inv_reach_sync {run : F → T} {f₀ : F} {c c' : Cfg n T F}
    (h : Inv run f₀ c) (hr : Reach run c c') : Inv run f₀ c' := by
  induction hr with
  | refl => exact h
  | tail _ hs ih => exact inv_step_sync ih hs

/-- The state component never decreases along a step taken from an
invariant-satisfying configuration. -/
theorem step_mono_sync {run : F → T} {f₀ : F} {c c' : Cfg n T F}
    (h : Inv run f₀ c) (hs : Step run c c') : c.state ≤ c'.state := by
  cases hs with
  | casWin i hi hst => show c.state ≤ 1; omega
  | casLoseBusy i hi hst => exact le_rfl
  | casLoseDone i hi hst => exact le_rfl
  | takeF i g hi hf => exact le_rfl
  | runWrite i g hi => exact le_rfl
  | publish i hi => show c.state ≤ 2; exact h.stLe
  | spinExit i hi hst => exact le_rfl
  | readW i v hi hv => exact le_rfl
  | readL i v hi hv => exact le_rfl

theorem reach_mono_sync {run : F → T} {f₀ : F} {c c' : Cfg n T F}
    (h : Inv run f₀ c) (hr : Reach run c c') : c.state ≤ c'.state := by
  induction hr with
  | refl => exact le_rfl
  | tail hr2 hs ih => exact le_trans ih (step_mono_sync (inv_reach_sync h hr2) hs)

theorem inv_fresh_async (run : F → T) (f₀ : F) (n : Nat) :
    AInv run f₀ (ACfg.fresh n f₀ : ACfg n T F) := by
  refine ⟨Nat.zero_le 2, fun _ => ⟨rfl, rfl, rfl, rfl⟩,
    fun h2 => absurd h2 (by decide : ¬UNINIT = 2),
    fun i => trivial, fun i j hi hj => absurd hi Bool.false_ne_true,
    fun j hw => rfl⟩

theorem inv_all_start_async {run : F → T} {f₀ : F} {c : ACfg n T F}
    (h : AInv run f₀ c) (hst : c.state = 0) : ∀ m, c.ts m = ATStat.start := by
  intro m
  have hm := h.tOK m
  cases hms : c.ts m with
  | start => rfl
  | claim1 => rw [hms] at hm; have : c.state = 1 := hm.1; omega
  | claim2 g => rw [hms] at hm; have : c.state = 1 := hm.2.1; omega
  | claim3 => rw [hms] at hm; have : c.state = 1 := hm.1; omega
  | claim4 => rw [hms] at hm; have : c.state = 2 := hm; omega
  | claim5 => rw [hms] at hm; have : c.state = 2 := hm; omega
  | poll1 => rw [hms] at hm; have : 1 ≤ c.state := hm; omega
  | poll2 => rw [hms] at hm; have : 1 ≤ c.state := hm; omega
  | parked => rw [hms] at hm; have : 1 ≤ c.state := hm; omega
  | readyL => rw [hms] at hm; have : c.state = 2 := hm; omega
  | doneW v => rw [hms] at hm; have : c.state = 2 := hm.1; omega
  | doneL v => rw [hms] at hm; have : c.state = 2 := hm.1; omega

theorem wakeTS_claimerB (s : ATStat T F) : (wakeTS s).claimerB = s.claimerB := by
  cases s <;> rfl

theorem asOK_wakeTS {run : F → T} {f₀ : F} {c : ACfg n T F} {s : ATStat T F}
    (h : asOK run f₀ c s) : asOK run f₀ c (wakeTS s) := by
  cases s <;> exact h

theorem inv_step_async {run : F → T} {f₀ : F} {c c' : ACfg n T F}
    (h : AInv run f₀ c) (hs : AStep run c c') : AInv run f₀ c' := by
  cases hs with
  | casWin i hi hst =>
      obtain ⟨hf, hv, hr, hw⟩ := h.st0 hst
      have hall := inv_all_start_async h hst
      refine ⟨(by decide : INITIALIZING ≤ 2),
        fun h0 => absurd h0 (by decide : ¬INITIALIZING = 0),
        fun h2 => absurd h2 (by decide : ¬INITIALIZING = 2),
        fun j => ?_, fun j k hj hk => ?_, fun j hwj => ?_⟩
      · by_cases hji : j = i
        · rw [hji]; simp only [Function.update_same]
          exact ⟨rfl, hf, hv, hr⟩
        · simp only [Function.update_noteq hji, hall j]
          trivial
      · by_cases hji : j = i
        · by_cases hki : k = i
          · rw [hji, hki]
          · simp only [Function.update_noteq hki, hall k] at hk
            exact absurd hk Bool.false_ne_true
        · simp only [Function.update_noteq hji, hall j] at hj
          exact absurd hj Bool.false_ne_true
      · have hwj2 : c.waker = some j := hwj
        rw [hw] at hwj2
        exact Option.noConfusion hwj2
  | casLoseBusy i hi hst =>
      have hst1 : c.state = 1 := hst
      refine ⟨h.stLe, h.st0, h.st2, fun j => ?_, fun j k hj hk => ?_,
        fun j hwj => ?_⟩
      · by_cases hji : j = i
        · rw [hji]; simp only [Function.update_same]
          exact hst1.ge
        · simp only [Function.update_noteq hji]
          exact h.tOK j
      · by_cases hji : j = i
        · rw [hji] at hj; simp only [Function.update_same] at hj
          exact absurd hj Bool.false_ne_true
        · by_cases hki : k = i
          · rw [hki] at hk; simp only [Function.update_same] at hk
            exact absurd hk Bool.false_ne_true
          · simp only [Function.update_noteq hji] at hj
            simp only [Function.update_noteq hki] at hk
            exact h.uniq j k hj hk
      · have hwj2 : c.waker = some j := hwj
        have hnc := h.wOK j hwj2
        by_cases hji : j = i
        · rw [hji]; simp only [Function.update_same]; rfl
        · simp only [Function.update_noteq hji]; exact hnc
  | casLoseDone i hi hst =>
      have hst2 : c.state = 2 := hst
      refine ⟨h.stLe, h.st0, h.st2, fun j => ?_, fun j k hj hk => ?_,
        fun j hwj => ?_⟩
      · by_cases hji : j = i
        · rw [hji]; simp only [Function.update_same]
          exact hst2
        · simp only [Function.update_noteq hji]
          exact h.tOK j
      · by_cases hji : j = i
        · rw [hji] at hj; simp only [Function.update_same] at hj
          exact absurd hj Bool.false_ne_true
        · by_cases hki : k = i
          · rw [hki] at hk; simp only [Function.update_same] at hk
            exact absurd hk Bool.false_ne_true
          · simp only [Function.update_noteq hji] at hj
            simp only [Function.update_noteq hki] at hk
            exact h.uniq j k hj hk
      · have hwj2 : c.waker = some j := hwj
        have hnc := h.wOK j hwj2
        by_cases hji : j = i
        · rw [hji]; simp only [Function.update_same]; rfl
        · simp only [Function.update_noteq hji]; exact hnc
  | takeF i g hi hf =>
      have hok := h.tOK i
      rw [hi] at hok
      obtain ⟨hst, hfi, hv, hr⟩ := hok
      have hg : g = f₀ := by
        rw [hfi] at hf
        exact (Option.some.inj hf).symm
      have hb : (c.ts i).claimerB = true := by rw [hi]; rfl
      refine ⟨h.stLe, ?_, ?_, fun j => ?_, fun j k hj hk => ?_, fun j hwj => ?_⟩
      · intro h0
        have h0' : c.state = 0 := h0
        omega
      · intro h2
        have h2' : c.state = 2 := h2
        omega
      · by_cases hji : j = i
        · rw [hji]; simp only [Function.update_same]
          exact ⟨hg, hst, rfl, hv, hr⟩
        · simp only [Function.update_noteq hji]
          have hj := h.tOK j
          cases hjs : c.ts j with
          | start => trivial
          | poll1 => rw [hjs] at hj; exact hj
          | poll2 => rw [hjs] at hj; exact hj
          | parked => rw [hjs] at hj; exact hj
          | claim1 => exact absurd (h.uniq j i (by rw [hjs]; rfl) hb) hji
          | claim2 g2 => exact absurd (h.uniq j i (by rw [hjs]; rfl) hb) hji
          | claim3 => exact absurd (h.uniq j i (by rw [hjs]; rfl) hb) hji
          | claim4 => rw [hjs] at hj; have h2 : c.state = 2 := hj; omega
          | claim5 => rw [hjs] at hj; have h2 : c.state = 2 := hj; omega
          | readyL => rw [hjs] at hj; have h2 : c.state = 2 := hj; omega
          | doneW v2 => rw [hjs] at hj; have h2 : c.state = 2 := hj.1; omega
          | doneL v2 => rw [hjs] at hj; have h2 : c.state = 2 := hj.1; omega
      · by_cases hji : j = i
        · by_cases hki : k = i
          · rw [hji, hki]
          · simp only [Function.update_noteq hki] at hk
            exact absurd (h.uniq k i hk hb) hki
        · simp only [Function.update_noteq hji] at hj
          exact absurd (h.uniq j i hj hb) hji
      · have hwj2 : c.waker = some j := hwj
        have hnc := h.wOK j hwj2
        have hji : ¬ j = i := by
          intro e
          rw [e, hb] at hnc
          exact Bool.noConfusion hnc
        simp only [Function.update_noteq hji]
        exact hnc
  | awaitWrite i g hi =>
      have hok := h.tOK i
      rw [hi] at hok
      obtain ⟨hg, hst, hfi, hv, hr⟩ := hok
      have hb : (c.ts i).claimerB = true := by rw [hi]; rfl
      refine ⟨h.stLe, ?_, ?_, fun j => ?_, fun j k hj hk => ?_, fun j hwj => ?_⟩
      · intro h0
        have h0' : c.state = 0 := h0
        omega
      · intro h2
        have h2' : c.state = 2 := h2
        omega
      · by_cases hji : j = i
        · rw [hji]; simp only [Function.update_same]
          exact ⟨hst, hfi, by rw [hg], by rw [hr]⟩
        · simp only [Function.update_noteq hji]
          have hj := h.tOK j
          cases hjs : c.ts j with
          | start => trivial
          | poll1 => rw [hjs] at hj; exact hj
          | poll2 => rw [hjs] at hj; exact hj
          | parked => rw [hjs] at hj; exact hj
          | claim1 => exact absurd (h.uniq j i (by rw [hjs]; rfl) hb) hji
          | claim2 g2 => exact absurd (h.uniq j i (by rw [hjs]; rfl) hb) hji
          | claim3 => exact absurd (h.uniq j i (by rw [hjs]; rfl) hb) hji
          | claim4 => rw [hjs] at hj; have h2 : c.state = 2 := hj; omega
          | claim5 => rw [hjs] at hj; have h2 : c.state = 2 := hj; omega
          | readyL => rw [hjs] at hj; have h2 : c.state = 2 := hj; omega
          | doneW v2 => rw [hjs] at hj; have h2 : c.state = 2 := hj.1; omega
          | doneL v2 => rw [hjs] at hj; have h2 : c.state = 2 := hj.1; omega
      · by_cases hji : j = i
        · by_cases hki : k = i
          · rw [hji, hki]
          · simp only [Function.update_noteq hki] at hk
            exact absurd (h.uniq k i hk hb) hki
        · simp only [Function.update_noteq hji] at hj
          exact absurd (h.uniq j i hj hb) hji
      · have hwj2 : c.waker = some j := hwj
        have hnc := h.wOK j hwj2
        have hji : ¬ j = i := by
          intro e
          rw [e, hb] at hnc
          exact Bool.noConfusion hnc
        simp only [Function.update_noteq hji]
        exact hnc
  | publish i hi =>
      have hok := h.tOK i
      rw [hi] at hok
      obtain ⟨hst, hfi, hv, hr⟩ := hok
      have hb : (c.ts i).claimerB = true := by rw [hi]; rfl
      refine ⟨(by decide : INIT ≤ 2), fun h0 => absurd h0 (by decide : ¬INIT = 0),
        fun _ => ⟨hfi, hv, hr⟩, fun j => ?_, fun j k hj hk => ?_, fun j hwj => ?_⟩
      · by_cases hji : j = i
        · rw [hji]; simp only [Function.update_same]
          exact rfl
        · simp only [Function.update_noteq hji]
          have hj := h.tOK j
          cases hjs : c.ts j with
          | start => trivial
          | poll1 => exact (by decide : (1:Nat) ≤ 2)
          | poll2 => exact (by decide : (1:Nat) ≤ 2)
          | parked => exact (by decide : (1:Nat) ≤ 2)
          | claim1 => exact absurd (h.uniq j i (by rw [hjs]; rfl) hb) hji
          | claim2 g2 => exact absurd (h.uniq j i (by rw [hjs]; rfl) hb) hji
          | claim3 => exact absurd (h.uniq j i (by rw [hjs]; rfl) hb) hji
          | claim4 => rw [hjs] at hj; have h2 : c.state = 2 := hj; omega
          | claim5 => rw [hjs] at hj; have h2 : c.state = 2 := hj; omega
          | readyL => rw [hjs] at hj; have h2 : c.state = 2 := hj; omega
          | doneW v2 => rw [hjs] at hj; have h2 : c.state = 2 := hj.1; omega
          | doneL v2 => rw [hjs] at hj; have h2 : c.state = 2 := hj.1; omega
      · by_cases hji : j = i
        · by_cases hki : k = i
          · rw [hji, hki]
          · simp only [Function.update_noteq hki] at hk
            exact absurd (h.uniq k i hk hb) hki
        · simp only [Function.update_noteq hji] at hj
          exact absurd (h.uniq j i hj hb) hji
      · have hwj2 : c.waker = some j := hwj
        have hnc := h.wOK j hwj2
        have hji : ¬ j = i := by
          intro e
          rw [e, hb] at hnc
          exact Bool.noConfusion hnc
        simp only [Function.update_noteq hji]
        exact hnc
  | wakeNone i hi hw =>
      have hok := h.tOK i
      rw [hi] at hok
      have hst2 : c.state = 2 := hok
      have hb : (c.ts i).claimerB = true := by rw [hi]; rfl
      refine ⟨h.stLe, h.st0, h.st2, fun j => ?_, fun j k hj hk => ?_,
        fun j hwj => ?_⟩
      · by_cases hji : j = i
        · rw [hji]; simp only [Function.update_same]
          exact hst2
        · simp only [Function.update_noteq hji]
          exact h.tOK j
      · by_cases hji : j = i
        · by_cases hki : k = i
          · rw [hji, hki]
          · simp only [Function.update_noteq hki] at hk
            exact absurd (h.uniq k i hk hb) hki
        · simp only [Function.update_noteq hji] at hj
          exact absurd (h.uniq j i hj hb) hji
      · have hwj2 : c.waker = some j := hwj
        rw [hw] at hwj2
        exact Option.noConfusion hwj2
  | wakeSome i j hi hw =>
      have hok := h.tOK i
      rw [hi] at hok
      have hst2 : c.state = 2 := hok
      have hb : (c.ts i).claimerB = true := by rw [hi]; rfl
      have hnc := h.wOK j hw
      have hji : ¬ j = i := by
        intro e
        rw [e, hb] at hnc
        exact Bool.noConfusion hnc
      refine ⟨h.stLe, ?_, h.st2, fun m => ?_, fun m k hm hk => ?_,
        fun m hwm => ?_⟩
      · intro h0
        have h0' : c.state = 0 := h0
        omega
      · by_cases hmi : m = i
        · rw [hmi]; simp only [Function.update_same]
          exact hst2
        · simp only [Function.update_noteq hmi]
          by_cases hmj : m = j
          · rw [hmj]; simp only [Function.update_same]
            exact asOK_wakeTS (h.tOK j)
          · simp only [Function.update_noteq hmj]
            exact h.tOK m
      · by_cases hmi : m = i
        · by_cases hki : k = i
          · rw [hmi, hki]
          · simp only [Function.update_noteq hki] at hk
            by_cases hkj : k = j
            · rw [hkj] at hk; simp only [Function.update_same] at hk
              rw [wakeTS_claimerB, hnc] at hk
              exact Bool.noConfusion hk
            · simp only [Function.update_noteq hkj] at hk
              exact absurd (h.uniq k i hk hb) hki
        · simp only [Function.update_noteq hmi] at hm
          by_cases hmj : m = j
          · rw [hmj] at hm; simp only [Function.update_same] at hm
            rw [wakeTS_claimerB, hnc] at hm
            exact Bool.noConfusion hm
          · simp only [Function.update_noteq hmj] at hm
            exact absurd (h.uniq m i hm hb) hmi
      · have hwm2 : (none : Option (Fin n)) = some m := hwm
        exact Option.noConfusion hwm2
  | register i hi =>
      have hok := h.tOK i
      rw [hi] at hok
      have h1 : 1 ≤ c.state := hok
      refine ⟨h.stLe, ?_, h.st2, fun j => ?_, fun j k hj hk => ?_,
        fun j hwj => ?_⟩
      · intro h0
        have h0' : c.state = 0 := h0
        omega
      · by_cases hji : j = i
        · rw [hji]; simp only [Function.update_same]
          exact h1
        · simp only [Function.update_noteq hji]
          exact h.tOK j
      · by_cases hji : j = i
        · rw [hji] at hj; simp only [Function.update_same] at hj
          exact absurd hj Bool.false_ne_true
        · by_cases hki : k = i
          · rw [hki] at hk; simp only [Function.update_same] at hk
            exact absurd hk Bool.false_ne_true
          · simp only [Function.update_noteq hji] at hj
            simp only [Function.update_noteq hki] at hk
            exact h.uniq j k hj hk
      · have hwj2 : (some i : Option (Fin n)) = some j := hwj
        have hij : i = j := Option.some.inj hwj2
        rw [← hij]
        simp only [Function.update_same]
        rfl
  | checkReady i hi hst =>
      have hst2 : c.state = 2 := hst
      refine ⟨h.stLe, h.st0, h.st2, fun j => ?_, fun j k hj hk => ?_,
        fun j hwj => ?_⟩
      · by_cases hji : j = i
        · rw [hji]; simp only [Function.update_same]
          exact hst2
        · simp only [Function.update_noteq hji]
          exact h.tOK j
      · by_cases hji : j = i
        · rw [hji] at hj; simp only [Function.update_same] at hj
          exact absurd hj Bool.false_ne_true
        · by_cases hki : k = i
          · rw [hki] at hk; simp only [Function.update_same] at hk
            exact absurd hk Bool.false_ne_true
          · simp only [Function.update_noteq hji] at hj
            simp only [Function.update_noteq hki] at hk
            exact h.uniq j k hj hk
      · have hwj2 : c.waker = some j := hwj
        have hnc := h.wOK j hwj2
        by_cases hji : j = i
        · rw [hji]; simp only [Function.update_same]; rfl
        · simp only [Function.update_noteq hji]; exact hnc
  | checkPend i hi hst =>
      have hok := h.tOK i
      rw [hi] at hok
      have h1 : 1 ≤ c.state := hok
      refine ⟨h.stLe, h.st0, h.st2, fun j => ?_, fun j k hj hk => ?_,
        fun j hwj => ?_⟩
      · by_cases hji : j = i
        · rw [hji]; simp only [Function.update_same]
          exact h1
        · simp only [Function.update_noteq hji]
          exact h.tOK j
      · by_cases hji : j = i
        · rw [hji] at hj; simp only [Function.update_same] at hj
          exact absurd hj Bool.false_ne_true
        · by_cases hki : k = i
          · rw [hki] at hk; simp only [Function.update_same] at hk
            exact absurd hk Bool.false_ne_true
          · simp only [Function.update_noteq hji] at hj
            simp only [Function.update_noteq hki] at hk
            exact h.uniq j k hj hk
      · have hwj2 : c.waker = some j := hwj
        have hnc := h.wOK j hwj2
        by_cases hji : j = i
        · rw [hji]; simp only [Function.update_same]; rfl
        · simp only [Function.update_noteq hji]; exact hnc
  | readW i v hi hv =>
      have hok := h.tOK i
      rw [hi] at hok
      have hst2 : c.state = 2 := hok
      obtain ⟨hfi, hval, hr⟩ := h.st2 hst2
      have hveq : v = run f₀ := by
        rw [hval] at hv
        exact (Option.some.inj hv).symm
      have hb : (c.ts i).claimerB = true := by rw [hi]; rfl
      refine ⟨h.stLe, h.st0, h.st2, fun j => ?_, fun j k hj hk => ?_,
        fun j hwj => ?_⟩
      · by_cases hji : j = i
        · rw [hji]; simp only [Function.update_same]
          exact ⟨hst2, hveq⟩
        · simp only [Function.update_noteq hji]
          exact h.tOK j
      · by_cases hji : j = i
        · by_cases hki : k = i
          · rw [hji, hki]
          · simp only [Function.update_noteq hki] at hk
            exact absurd (h.uniq k i hk hb) hki
        · simp only [Function.update_noteq hji] at hj
          exact absurd (h.uniq j i hj hb) hji
      · have hwj2 : c.waker = some j := hwj
        have hnc := h.wOK j hwj2
        have hji : ¬ j = i := by
          intro e
          rw [e, hb] at hnc
          exact Bool.noConfusion hnc
        simp only [Function.update_noteq hji]
        exact hnc
  | readL i v hi hv =>
      have hok := h.tOK i
      rw [hi] at hok
      have hst2 : c.state = 2 := hok
      obtain ⟨hfi, hval, hr⟩ := h.st2 hst2
      have hveq : v = run f₀ := by
        rw [hval] at hv
        exact (Option.some.inj hv).symm
      refine ⟨h.stLe, h.st0, h.st2, fun j => ?_, fun j k hj hk => ?_,
        fun j hwj => ?_⟩
      · by_cases hji : j = i
        · rw [hji]; simp only [Function.update_same]
          exact ⟨hst2, hveq⟩
        · simp only [Function.update_noteq hji]
          exact h.tOK j
      · by_cases hji : j = i
        · rw [hji] at hj; simp only [Function.update_same] at hj
          exact absurd hj Bool.false_ne_true
        · by_cases hki : k = i
          · rw [hki] at hk; simp only [Function.update_same] at hk
            exact absurd hk Bool.false_ne_true
          · simp only [Function.update_noteq hji] at hj
            simp only [Function.update_noteq hki] at hk
            exact h.uniq j k hj hk
      · have hwj2 : c.waker = some j := hwj
        have hnc := h.wOK j hwj2
        by_cases hji : j = i
        · rw [hji]; simp only [Function.update_same]; rfl
        · simp only [Function.update_noteq hji]; exact hnc

theorem inv_reach_async {run : F → T} {f₀ : F} {c c' : ACfg n T F}
    (h : AInv run f₀ c) (hr : AReach run c c') : AInv run f₀ c' := by
  induction hr with
  | refl => exact h
  | tail _ hs ih => exact inv_step_async ih hs

/-- The state component never decreases along an asynchronous step taken
from an invariant-satisfying configuration. -/
theorem step_mono_async {run : F → T} {f₀ : F} {c c' : ACfg n T F}
    (h : AInv run f₀ c) (hs : AStep run c c') : c.state ≤ c'.state := by
  cases hs with
  | casWin i hi hst =>
      have hst0 : c.state = 0 := hst
      show c.state ≤ 1
      omega
  | casLoseBusy i hi hst => exact le_rfl
  | casLoseDone i hi hst => exact le_rfl
  | takeF i g hi hf => exact le_rfl
  | awaitWrite i g hi => exact le_rfl
  | publish i hi =>
      show c.state ≤ 2
      exact h.stLe
  | wakeNone i hi hw => exact le_rfl
  | wakeSome i j hi hw => exact le_rfl
  | register i hi => exact le_rfl
  | checkReady i hi hst => exact le_rfl
  | checkPend i hi hst => exact le_rfl
  | readW i v hi hv => exact le_rfl
  | readL i v hi hv => exact le_rfl

theorem reach_mono_async {run : F → T} {f₀ : F} {c c' : ACfg n T F}
    (h : AInv run f₀ c) (hr : AReach run c c') : c.state ≤ c'.state := by
  induction hr with
  | refl => exact le_rfl
  | tail hr2 hs ih => exact le_trans ih (step_mono_async (inv_reach_async h hr2) hs)

theorem inv_start_into (v₀ : T) : IInv v₀ (ICfg.start : ICfg T) := by
  constructor
  · exact Or.inl rfl
  · exact ⟨fun _ => Or.inl rfl, fun _ => rfl⟩
  · exact fun _ => ⟨rfl, fun h => BStat.noConfusion h, fun v h => BStat.noConfusion h⟩
  · exact fun hw => PStat.noConfusion hw
  · exact fun hne => absurd rfl hne
  · rfl
  · exact fun v hv => BStat.noConfusion hv
  · exact fun h => BStat.noConfusion h

theorem wakeB_done {b : BStat T} {v : T} : wakeB b = .done v ↔ b = .done v := by
  cases b <;> simp [wakeB]

theorem wakeB_ready {b : BStat T} : wakeB b = .ready ↔ b = .ready := by
  cases b <;> simp [wakeB]

theorem bFrees_wakeB (b : BStat T) : bFrees (wakeB b) = bFrees b := by
  cases b <;> rfl

theorem inv_step_into {v₀ : T} {c c' : ICfg T}
    (h : IInv v₀ c) (hs : IStep v₀ c c') : IInv v₀ c' := by
  cases hs with
  | pWrite hp =>
      have hst1 : c.state = 1 := h.hp1.mpr (Or.inl hp)
      obtain ⟨hv, hnr, hnd⟩ := h.hrun hp
      exact ⟨Or.inl hst1, ⟨fun _ => Or.inr rfl, fun _ => hst1⟩,
        fun hr => PStat.noConfusion hr, fun _ => ⟨rfl, hnr, hnd⟩,
        fun _ => Or.inr ⟨rfl, hnd⟩, h.hfrees,
        fun v hv2 => absurd hv2 (hnd v), fun hr => absurd hr hnr⟩
  | pPub hp =>
      have hst1 : c.state = 1 := h.hp1.mpr (Or.inr hp)
      obtain ⟨hv, hnr, hnd⟩ := h.hwrote hp
      refine ⟨Or.inr rfl, ⟨fun h1 => absurd h1 (by decide : ¬INIT = 1), ?_⟩,
        fun hr => PStat.noConfusion hr, fun hw => PStat.noConfusion hw,
        fun _ => Or.inr ⟨hv, hnd⟩, h.hfrees,
        fun v hv2 => absurd hv2 (hnd v), fun hr => absurd hr hnr⟩
      intro hor
      cases hor with
      | inl e => exact PStat.noConfusion e
      | inr e => exact PStat.noConfusion e
  | pWake hp =>
      have hst2 : c.state = 2 := by
        cases h.stv with
        | inl h1 =>
            have hor := h.hp1.mp h1
            rw [hp] at hor
            cases hor with
            | inl e => exact PStat.noConfusion e
            | inr e => exact PStat.noConfusion e
        | inr h2 => exact h2
      have hpn : c.p ≠ PStat.run1 := by
        intro e
        rw [hp] at e
        exact PStat.noConfusion e
      have hvd := h.hval hpn
      have hBd : ∀ v : T, (if c.waker then wakeB c.b else c.b) = .done v ↔ c.b = .done v := by
        intro v
        by_cases hwk : c.waker
        · simp [hwk, wakeB_done]
        · simp [hwk]
      have hBr : (if c.waker then wakeB c.b else c.b) = .ready ↔ c.b = .ready := by
        by_cases hwk : c.waker
        · simp [hwk, wakeB_ready]
        · simp [hwk]
      have hBf : bFrees (if c.waker then wakeB c.b else c.b) = bFrees c.b := by
        by_cases hwk : c.waker
        · simp [hwk, bFrees_wakeB]
        · simp [hwk]
      refine ⟨Or.inr hst2,
        ⟨fun h1 => by have h1' : c.state = 1 := h1; omega, ?_⟩,
        fun hr => PStat.noConfusion hr, fun hw => PStat.noConfusion hw,
        fun _ => ?_, ?_, fun v hv2 => h.hbdone v ((hBd v).mp hv2),
        fun hr => h.hbready (hBr.mp hr)⟩
      · intro hor
        cases hor with
        | inl e => exact PStat.noConfusion e
        | inr e => exact PStat.noConfusion e
      · cases hvd with
        | inl hl =>
            obtain ⟨⟨v, hdv⟩, hvn⟩ := hl
            exact Or.inl ⟨⟨v, (hBd v).mpr hdv⟩, hvn⟩
        | inr hr2 =>
            exact Or.inr ⟨hr2.1, fun v hv2 => hr2.2 v ((hBd v).mp hv2)⟩
      · show c.frees = bFrees (if c.waker then wakeB c.b else c.b)
        rw [hBf]
        exact h.hfrees
  | bReg hb =>
      refine ⟨h.stv, h.hp1, fun hr => ?_, fun hw => ?_, fun hne => ?_, ?_,
        fun v e => BStat.noConfusion e, fun e => BStat.noConfusion e⟩
      · obtain ⟨hv, _, _⟩ := h.hrun hr
        exact ⟨hv, fun e => BStat.noConfusion e, fun v e => BStat.noConfusion e⟩
      · obtain ⟨hv, _, _⟩ := h.hwrote hw
        exact ⟨hv, fun e => BStat.noConfusion e, fun v e => BStat.noConfusion e⟩
      · cases h.hval hne with
        | inl hl =>
            obtain ⟨⟨v, hdv⟩, _⟩ := hl
            rw [hb] at hdv
            exact BStat.noConfusion hdv
        | inr hr2 =>
            exact Or.inr ⟨hr2.1, fun v e => BStat.noConfusion e⟩
      · show c.frees = bFrees (BStat.poll2 : BStat T)
        rw [h.hfrees, hb]; rfl
  | bCheckR hb hst =>
      have hst2 : c.state = 2 := hst
      have hpn : ¬(c.p = PStat.run1 ∨ c.p = PStat.wrote) := by
        intro hor
        have := h.hp1.mpr hor
        omega
      refine ⟨h.stv, h.hp1, fun hr => absurd (Or.inl hr) hpn,
        fun hw => absurd (Or.inr hw) hpn, fun hne => ?_, ?_,
        fun v e => BStat.noConfusion e, fun _ => hst2⟩
      · cases h.hval hne with
        | inl hl =>
            obtain ⟨⟨v, hdv⟩, _⟩ := hl
            rw [hb] at hdv
            exact BStat.noConfusion hdv
        | inr hr2 =>
            exact Or.inr ⟨hr2.1, fun v e => BStat.noConfusion e⟩
      · show c.frees = bFrees (BStat.ready : BStat T)
        rw [h.hfrees, hb]; rfl
  | bCheckP hb hst =>
      refine ⟨h.stv, h.hp1, fun hr => ?_, fun hw => ?_, fun hne => ?_, ?_,
        fun v e => BStat.noConfusion e, fun e => BStat.noConfusion e⟩
      · obtain ⟨hv, _, _⟩ := h.hrun hr
        exact ⟨hv, fun e => BStat.noConfusion e, fun v e => BStat.noConfusion e⟩
      · obtain ⟨hv, _, _⟩ := h.hwrote hw
        exact ⟨hv, fun e => BStat.noConfusion e, fun v e => BStat.noConfusion e⟩
      · cases h.hval hne with
        | inl hl =>
            obtain ⟨⟨v, hdv⟩, _⟩ := hl
            rw [hb] at hdv
            exact BStat.noConfusion hdv
        | inr hr2 =>
            exact Or.inr ⟨hr2.1, fun v e => BStat.noConfusion e⟩
      · show c.frees = bFrees (BStat.parked : BStat T)
        rw [h.hfrees, hb]; rfl
  | bTake v hb hv =>
      have hst2 : c.state = 2 := h.hbready hb
      have hpn1 : c.p ≠ PStat.run1 := by
        intro e
        have := h.hp1.mpr (Or.inl e)
        omega
      have hveq : v = v₀ := by
        cases h.hval hpn1 with
        | inl hl =>
            obtain ⟨⟨v2, hdv⟩, _⟩ := hl
            rw [hb] at hdv
            exact BStat.noConfusion hdv
        | inr hr2 =>
            rw [hr2.1] at hv
            exact (Option.some.inj hv).symm
      have h0 : c.frees = 0 := by rw [h.hfrees, hb]; rfl
      refine ⟨h.stv, h.hp1, fun hr => absurd hr hpn1,
        fun hw => by have := h.hp1.mpr (Or.inr hw); omega,
        fun _ => Or.inl ⟨⟨v, rfl⟩, rfl⟩, ?_,
        fun v2 hv2 => ⟨(BStat.done.inj hv2).symm.trans hveq, hst2⟩,
        fun e => BStat.noConfusion e⟩
      show c.frees + 1 = 1
      omega

theorem inv_reach_into {v₀ : T} {c c' : ICfg T}
    (h : IInv v₀ c) (hr : IReach v₀ c c') : IInv v₀ c' := by
  induction hr with
  | refl => exact h
  | tail _ hs ih => exact inv_step_into ih hs

/-! ### Small general helpers -/

theorem update_fin1 {α : Type} (u : Fin 1 → α) (x : α) :
    Function.update u 0 x = fun _ => x := by
  funext i
  have hi : i = (0 : Fin 1) := Subsingleton.elim i 0
  rw [hi, Function.update_same]

theorem Step.cast {n : Nat} {run : F → T} {a b b' : Cfg n T F}
    (h : Step run a b) (e : b = b') : Step run a b' := e ▸ h

/-- Every sequentially reachable cell is either untouched (state 0, with
the initializer still in its slot) or fully initialized (state 2, with a
value in its slot); state 1 is never observable. -/
theorem SeqReach.state_cases {run : F → T} {c : Lazy T F} (h : SeqReach run c) :
    (c.state = 0 ∧ ∃ g, c.f = some g) ∨ (c.state = 2 ∧ ∃ v, c.value = some v) := by
  induction h with
  | new f => exact Or.inl ⟨rfl, f, rfl⟩
  | init v => exact Or.inr ⟨rfl, v, rfl⟩
  | get c hc ih =>
      cases ih with
      | inl hl =>
          obtain ⟨hst, g, hg⟩ := hl
          exact Or.inr ⟨by simp [Lazy.getSeq, hst], run g,
            by simp [Lazy.getSeq, hst, hg]⟩
      | inr hr =>
          obtain ⟨hst, v, hv⟩ := hr
          exact Or.inr ⟨by simp [Lazy.getSeq, hst], v,
            by simp [Lazy.getSeq, hst, hv]⟩

/-! ### The claims -/

/-- C2 counterexample: at state 1 (Initializing), both `Drop` impls complete
normally — the run spin-waits (`waited = true`) and then drops the stored
value; `aborted = false` because neither impl has a panicking, fatal or
unimplemented arm there (src/lib.rs line 238, src/asnc.rs line 190). This
refutes the claim that teardown in the Initializing state is a hard
error. -/
theorem drop_initializing_not_fatal :
    Lazy.dropRun 1 = ⟨true, [Slot.stored], false⟩ ∧
    (Lazy.dropRun 1).aborted = false ∧
    AsyncLazy.dropRun INITIALIZING = ⟨true, [Slot.stored], false⟩ ∧
    (AsyncLazy.dropRun INITIALIZING).aborted = false :=
  ⟨rfl, rfl, rfl, rfl⟩

/-- C2 (amended): destruction of an Uninit cell drops only the stored
initializer, destruction of an Init cell drops only the stored value, and
destruction of an Initializing cell spin-waits until the state leaves
Initializing and then drops the stored value; no case is a hard error. -/
theorem drop_spec :
    Lazy.dropRun 0 = ⟨false, [Slot.initializer], false⟩ ∧
    Lazy.dropRun 1 = ⟨true, [Slot.stored], false⟩ ∧
    Lazy.dropRun 2 = ⟨false, [Slot.stored], false⟩ ∧
    AsyncLazy.dropRun UNINIT = ⟨false, [Slot.initializer], false⟩ ∧
    AsyncLazy.dropRun INITIALIZING = ⟨true, [Slot.stored], false⟩ ∧
    AsyncLazy.dropRun INIT = ⟨false, [Slot.stored], false⟩ :=
  ⟨rfl, rfl, rfl, rfl, rfl, rfl⟩

/-- C9: on every poll, `AwaitInit` first overwrites the single waker slot
with the current context's waker (the returned slot is `some cx` whatever
`prev` held), then checks the state: the result is `ready` exactly when the
state equals the target, and `pending` otherwise. -/
theorem await_init_poll_spec {W : Type} (a : AwaitInit) (state : Nat)
    (prev : Option W) (cx : W) :
    ((a.poll state prev cx).1 = PollRes.ready ↔ state = a.target) ∧
    ((a.poll state prev cx).1 = PollRes.pending ↔ state ≠ a.target) ∧
    (a.poll state prev cx).2 = some cx := by
  refine ⟨?_, ?_, rfl⟩ <;> by_cases h : state = a.target <;>
    simp [AwaitInit.poll, h]

/-- C10: a cell built with the already-initialized constructor reports
`has_init` immediately, and every access — `get` (sequential run),
`try_get`, `into_inner` — returns the given value with zero initializer
invocations and without changing the cell; likewise for `AsyncLazy`. -/
theorem init_constructor_spec {T F W : Type} (v : T) (run : F → T) :
    (Lazy.init v : Lazy T F).has_init = true ∧
    ((Lazy.init v : Lazy T F).getSeq run).1 = some v ∧
    ((Lazy.init v : Lazy T F).getSeq run).2.1 = Lazy.init v ∧
    ((Lazy.init v : Lazy T F).getSeq run).2.2 = 0 ∧
    ((Lazy.init v : Lazy T F).try_get).1 = some v ∧
    (Lazy.init v : Lazy T F).into_inner run = some (v, 0) ∧
    (AsyncLazy.init v : AsyncLazy W T F).has_init = true ∧
    ((AsyncLazy.init v : AsyncLazy W T F).getSeq run).1 = some v ∧
    ((AsyncLazy.init v : AsyncLazy W T F).getSeq run).2.1 = AsyncLazy.init v ∧
    ((AsyncLazy.init v : AsyncLazy W T F).getSeq run).2.2 = 0 ∧
    ((AsyncLazy.init v : AsyncLazy W T F).try_get).1 = some v ∧
    (AsyncLazy.init v : AsyncLazy W T F).into_inner run = some (v, 0) :=
  ⟨rfl, rfl, rfl, rfl, rfl, rfl, rfl, rfl, rfl, rfl, rfl, rfl⟩

/-- C4 (at the modelled constant values 0, 1, 2; the source's own constant
definitions are cyclic and have no value): the three modelled states are
pairwise distinct, and each `AsyncLazy` operation performs the same state
transitions and returns the same results as the corresponding `Lazy`
operation under the waker-forgetting map `toSync`; the sequential models
conflate the loser's suspension (`AsyncLazy`) and spin (`Lazy`) as
non-termination, which is exactly where the two variants differ. -/
theorem async_mirrors_sync {T F W : Type} (run : F → T) (v : T) (f : F)
    (c : AsyncLazy W T F) (hle : c.state ≤ 2) :
    (UNINIT ≠ INITIALIZING ∧ INITIALIZING ≠ INIT ∧ UNINIT ≠ INIT) ∧
    (AsyncLazy.new f : AsyncLazy W T F).toSync = Lazy.new f ∧
    (AsyncLazy.init v : AsyncLazy W T F).toSync = Lazy.init v ∧
    (c.getSeq run).1 = ((c.toSync).getSeq run).1 ∧
    ((c.getSeq run).2.1).toSync = ((c.toSync).getSeq run).2.1 ∧
    (c.getSeq run).2.2 = ((c.toSync).getSeq run).2.2 ∧
    (c.try_get).1 = ((c.toSync).try_get).1 ∧
    c.into_inner run = (c.toSync).into_inner run ∧
    c.has_init = (c.toSync).has_init := by
  have hcases : c.state = 0 ∨ c.state = 1 ∨ c.state = 2 := by omega
  refine ⟨⟨by decide, by decide, by decide⟩, rfl, rfl, ?_, ?_, ?_, ?_, ?_, ?_⟩ <;>
    rcases hcases with h | h | h <;>
      simp [AsyncLazy.getSeq, Lazy.getSeq, AsyncLazy.try_get, Lazy.try_get,
        AsyncLazy.into_inner, Lazy.into_inner, AsyncLazy.has_init,
        Lazy.has_init, AsyncLazy.toSync, UNINIT, INITIALIZING, INIT, h]

/-- Witness for `async_mirrors_sync` at an already-initialized cell. -/
theorem async_mirrors_sync_w :
    (UNINIT ≠ INITIALIZING ∧ INITIALIZING ≠ INIT ∧ UNINIT ≠ INIT) ∧
    (AsyncLazy.new () : AsyncLazy Unit Nat Unit).toSync = Lazy.new () ∧
    (AsyncLazy.init 7 : AsyncLazy Unit Nat Unit).toSync = Lazy.init 7 ∧
    ((AsyncLazy.init 7 : AsyncLazy Unit Nat Unit).getSeq r7).1 =
      (((AsyncLazy.init 7 : AsyncLazy Unit Nat Unit).toSync).getSeq r7).1 ∧
    (((AsyncLazy.init 7 : AsyncLazy Unit Nat Unit).getSeq r7).2.1).toSync =
      (((AsyncLazy.init 7 : AsyncLazy Unit Nat Unit).toSync).getSeq r7).2.1 ∧
    ((AsyncLazy.init 7 : AsyncLazy Unit Nat Unit).getSeq r7).2.2 =
      (((AsyncLazy.init 7 : AsyncLazy Unit Nat Unit).toSync).getSeq r7).2.2 ∧
    ((AsyncLazy.init 7 : AsyncLazy Unit Nat Unit).try_get).1 =
      (((AsyncLazy.init 7 : AsyncLazy Unit Nat Unit).toSync).try_get).1 ∧
    (AsyncLazy.init 7 : AsyncLazy Unit Nat Unit).into_inner r7 =
      ((AsyncLazy.init 7 : AsyncLazy Unit Nat Unit).toSync).into_inner r7 ∧
    (AsyncLazy.init 7 : AsyncLazy Unit Nat Unit).has_init =
      ((AsyncLazy.init 7 : AsyncLazy Unit Nat Unit).toSync).has_init :=
  async_mirrors_sync r7 7 () (AsyncLazy.init 7) (by decide)

/-- C1: for every number n > 0 of concurrent callers racing `Lazy::get` on
a freshly constructed cell, in every interleaving in which all callers have
returned: the initializer ran exactly once, every caller's returned
reference is the same value `run f₀`, and at most one caller ever won the
`compare_exchange(0, 1, …)` claim (a winner carries a claimer-marked
program counter from the claim to its final state, so final-state
uniqueness is uniqueness over the whole run). -/
theorem get_exactly_once {n : Nat} {T F : Type} (run : F → T) (f₀ : F)
    (c : Cfg n T F) (hn : 0 < n) (hr : Reach run (Cfg.fresh n f₀) c)
    (hdone : ∀ i, (c.ts i).isDone = true) :
    c.runs = 1 ∧
    (∀ i, (c.ts i).result = some (run f₀)) ∧
    (∀ i j, (c.ts i).claimerB = true → (c.ts j).claimerB = true → i = j) := by
  have hinv := inv_reach_sync (inv_fresh_sync run f₀ n) hr
  have hst2 : c.state = 2 := by
    have hd0 := hdone ⟨0, hn⟩
    have hok := hinv.tOK ⟨0, hn⟩
    cases hs : c.ts ⟨0, hn⟩ with
    | doneW v => rw [hs] at hok; exact hok.1
    | doneL v => rw [hs] at hok; exact hok.1
    | start => rw [hs] at hd0; exact Bool.noConfusion hd0
    | claim1 => rw [hs] at hd0; exact Bool.noConfusion hd0
    | claim2 g => rw [hs] at hd0; exact Bool.noConfusion hd0
    | claim3 => rw [hs] at hd0; exact Bool.noConfusion hd0
    | claim4 => rw [hs] at hd0; exact Bool.noConfusion hd0
    | wait => rw [hs] at hd0; exact Bool.noConfusion hd0
    | readyL => rw [hs] at hd0; exact Bool.noConfusion hd0
  refine ⟨(hinv.st2 hst2).2.2, fun i => ?_, hinv.uniq⟩
  have hdi := hdone i
  have hok := hinv.tOK i
  cases hs : c.ts i with
  | doneW v => rw [hs] at hok; simp only [TStat.result]; rw [hok.2]
  | doneL v => rw [hs] at hok; simp only [TStat.result]; rw [hok.2]
  | start => rw [hs] at hdi; exact Bool.noConfusion hdi
  | claim1 => rw [hs] at hdi; exact Bool.noConfusion hdi
  | claim2 g => rw [hs] at hdi; exact Bool.noConfusion hdi
  | claim3 => rw [hs] at hdi; exact Bool.noConfusion hdi
  | claim4 => rw [hs] at hdi; exact Bool.noConfusion hdi
  | wait => rw [hs] at hdi; exact Bool.noConfusion hdi
  | readyL => rw [hs] at hdi; exact Bool.noConfusion hdi

/-- Witness for `get_exactly_once`: the one-caller execution
win-take-run-publish-read, ending at `wCfg5`. -/
theorem get_exactly_once_w :
    wCfg5.runs = 1 ∧
    (∀ i, (wCfg5.ts i).result = some 7) ∧
    (∀ i j, (wCfg5.ts i).claimerB = true → (wCfg5.ts j).claimerB = true → i = j) := by
  have e1 : ({wCfg0 with state := 1, ts := Function.update wCfg0.ts 0 TStat.claim1} : Cfg 1 Nat Unit) = wCfg1 := by
    simp [wCfg0, wCfg1, Cfg.fresh, update_fin1]
  have e2 : ({wCfg1 with f := none, ts := Function.update wCfg1.ts 0 (TStat.claim2 ())} : Cfg 1 Nat Unit) = wCfg2 := by
    simp [wCfg1, wCfg2, update_fin1]
  have e3 : ({wCfg2 with value := some (r7 ()), runs := wCfg2.runs + 1, ts := Function.update wCfg2.ts 0 TStat.claim3} : Cfg 1 Nat Unit) = wCfg3 := by
    simp [wCfg2, wCfg3, r7, update_fin1]
  have e4 : ({wCfg3 with state := 2, ts := Function.update wCfg3.ts 0 TStat.claim4} : Cfg 1 Nat Unit) = wCfg4 := by
    simp [wCfg3, wCfg4, update_fin1]
  have e5 : ({wCfg4 with ts := Function.update wCfg4.ts 0 (TStat.doneW 7)} : Cfg 1 Nat Unit) = wCfg5 := by
    simp [wCfg4, wCfg5, update_fin1]
  have s1 : Step r7 wCfg0 wCfg1 := Step.cast (Step.casWin wCfg0 0 rfl rfl) e1
  have s2 : Step r7 wCfg1 wCfg2 := Step.cast (Step.takeF wCfg1 0 () rfl rfl) e2
  have s3 : Step r7 wCfg2 wCfg3 := Step.cast (Step.runWrite wCfg2 0 () rfl) e3
  have s4 : Step r7 wCfg3 wCfg4 := Step.cast (Step.publish wCfg3 0 rfl) e4
  have s5 : Step r7 wCfg4 wCfg5 := Step.cast (Step.readW wCfg4 0 7 rfl rfl) e5
  have hreach : Reach r7 wCfg0 wCfg5 :=
    Relation.ReflTransGen.head s1 (Relation.ReflTransGen.head s2
      (Relation.ReflTransGen.head s3 (Relation.ReflTransGen.head s4
        (Relation.ReflTransGen.head s5 Relation.ReflTransGen.refl))))
  exact get_exactly_once r7 () wCfg5 (by decide) hreach (by decide)

/-- C3: in both interleaving models, from a fresh cell the state only ever
advances (it never decreases along any further execution), and whenever a
configuration has state Init (2), the value slot holds the fully written
initialized value `run f₀` — the write happens strictly before the
publishing store. -/
theorem state_monotone_init_written {n : Nat} {T F : Type}
    (run : F → T) (f₀ : F) (c : Cfg n T F) (d : ACfg n T F)
    (hc : Reach run (Cfg.fresh n f₀) c) (hd : AReach run (ACfg.fresh n f₀) d) :
    (∀ c', Reach run c c' → c.state ≤ c'.state) ∧
    (c.state = 2 → c.value = some (run f₀)) ∧
    (∀ d', AReach run d d' → d.state ≤ d'.state) ∧
    (d.state = INIT → d.value = some (run f₀)) := by
  have hic := inv_reach_sync (inv_fresh_sync run f₀ n) hc
  have hid := inv_reach_async (inv_fresh_async run f₀ n) hd
  exact ⟨fun c' h' => reach_mono_sync hic h',
    fun h2 => (hic.st2 h2).2.1,
    fun d' h' => reach_mono_async hid h',
    fun h2 => (hid.st2 h2).2.1⟩

/-- Witness for `state_monotone_init_written` at the fresh configurations
themselves. -/
theorem state_monotone_init_written_w :
    (∀ c', Reach r7 (Cfg.fresh 1 () : Cfg 1 Nat Unit) c' →
      (Cfg.fresh 1 () : Cfg 1 Nat Unit).state ≤ c'.state) ∧
    ((Cfg.fresh 1 () : Cfg 1 Nat Unit).state = 2 →
      (Cfg.fresh 1 () : Cfg 1 Nat Unit).value = some (r7 ())) ∧
    (∀ d', AReach r7 (ACfg.fresh 1 () : ACfg 1 Nat Unit) d' →
      (ACfg.fresh 1 () : ACfg 1 Nat Unit).state ≤ d'.state) ∧
    ((ACfg.fresh 1 () : ACfg 1 Nat Unit).state = INIT →
      (ACfg.fresh 1 () : ACfg 1 Nat Unit).value = some (r7 ())) :=
  state_monotone_init_written r7 () (Cfg.fresh 1 ()) (ACfg.fresh 1 ())
    Relation.ReflTransGen.refl Relation.ReflTransGen.refl

/-- C5: consuming a uniquely-owned cell with `into_inner` never meets state
1 (Initializing is unreachable under unique ownership); on a still-Uninit
cell it runs the stored initializer exactly once and returns its result; on
an already-Init cell it returns the stored value and runs no initializer. -/
theorem lazy_into_inner_spec {T F : Type} (run : F → T) (c : Lazy T F)
    (h : SeqReach run c) :
    c.state ≠ 1 ∧
    (c.state = 0 → ∃ g, c.f = some g ∧ c.into_inner run = some (run g, 1)) ∧
    (c.state ≠ 0 → ∃ v, c.value = some v ∧ c.into_inner run = some (v, 0)) := by
  cases h.state_cases with
  | inl hl =>
      obtain ⟨hst, g, hg⟩ := hl
      refine ⟨by omega, fun _ => ⟨g, hg, ?_⟩, fun hne => absurd hst hne⟩
      simp [Lazy.into_inner, hst, hg]
  | inr hr =>
      obtain ⟨hst, v, hv⟩ := hr
      refine ⟨by omega, fun h0 => by omega, fun _ => ⟨v, hv, ?_⟩⟩
      simp [Lazy.into_inner, hst, hv]

/-- Witness for `lazy_into_inner_spec` on a fresh cell. -/
theorem lazy_into_inner_spec_w :
    (Lazy.new () : Lazy Nat Unit).state ≠ 1 ∧
    ((Lazy.new () : Lazy Nat Unit).state = 0 →
      ∃ g, (Lazy.new () : Lazy Nat Unit).f = some g ∧
        (Lazy.new () : Lazy Nat Unit).into_inner r7 = some (r7 g, 1)) ∧
    ((Lazy.new () : Lazy Nat Unit).state ≠ 0 →
      ∃ v, (Lazy.new () : Lazy Nat Unit).value = some v ∧
        (Lazy.new () : Lazy Nat Unit).into_inner r7 = some (v, 0)) :=
  lazy_into_inner_spec r7 (Lazy.new ()) (SeqReach.new ())

/-- C6: whenever the `into_inner` caller of the mid-initialization model
has returned a value, that value is the one the winner published, the state
is Init (it cannot return before the publish), the value slot was moved out
(now empty), and the slot was consumed exactly once (`frees = 1`): the
`ManuallyDrop` wrapper means no teardown transition exists, so no double
free can occur. A caller that has merely observed readiness has also only
done so at state Init. -/
theorem async_into_inner_midinit {T : Type} (v₀ : T) (c : ICfg T)
    (hr : IReach v₀ ICfg.start c) :
    (∀ v, c.b = BStat.done v →
      v = v₀ ∧ c.state = INIT ∧ c.value = none ∧ c.frees = 1) ∧
    (c.b = BStat.ready → c.state = INIT) := by
  have hinv := inv_reach_into (inv_start_into v₀) hr
  refine ⟨fun v hv => ?_, fun hrdy => hinv.hbready hrdy⟩
  obtain ⟨hveq, hst2⟩ := hinv.hbdone v hv
  have hpn : c.p ≠ PStat.run1 := by
    intro e
    have := hinv.hp1.mpr (Or.inl e)
    omega
  have hvn : c.value = none := by
    cases hinv.hval hpn with
    | inl hl => exact hl.2
    | inr hr2 => exact absurd hv (hr2.2 v)
  have hf1 : c.frees = 1 := by
    rw [hinv.hfrees, hv]
    rfl
  exact ⟨hveq, hst2, hvn, hf1⟩

/-- Witness for `async_into_inner_midinit`: the execution
write-publish-register-observe-take, ending at `iCfg5`. -/
theorem async_into_inner_midinit_w :
    (∀ v, iCfg5.b = BStat.done v →
      v = 7 ∧ iCfg5.state = INIT ∧ iCfg5.value = none ∧ iCfg5.frees = 1) ∧
    (iCfg5.b = BStat.ready → iCfg5.state = INIT) := by
  have s1 : IStep 7 (ICfg.start : ICfg Nat) iCfg1 := IStep.pWrite ICfg.start rfl
  have s2 : IStep 7 iCfg1 iCfg2 := IStep.pPub iCfg1 rfl
  have s3 : IStep 7 iCfg2 iCfg3 := IStep.bReg iCfg2 rfl
  have s4 : IStep 7 iCfg3 iCfg4 := IStep.bCheckR iCfg3 rfl rfl
  have s5 : IStep 7 iCfg4 iCfg5 := IStep.bTake iCfg4 7 rfl rfl
  have hreach : IReach 7 ICfg.start iCfg5 :=
    Relation.ReflTransGen.head s1 (Relation.ReflTransGen.head s2
      (Relation.ReflTransGen.head s3 (Relation.ReflTransGen.head s4
        (Relation.ReflTransGen.head s5 Relation.ReflTransGen.refl))))
  exact async_into_inner_midinit 7 iCfg5 hreach

/-- C7: `try_get` (sync and async) returns `some` exactly when the state is
Init, returning the stored value there and `none` in the Uninit and
Initializing states; it leaves the cell unchanged and never invokes an
initializer (its run count is 0 — the definition takes no initializer
evaluation map at all). The slot-validity hypotheses say the cell is
well-formed (an Init cell has a written value slot), which holds for every
reachable cell (`Inv.st2`, `AInv.st2`, `SeqReach.state_cases`). -/
theorem try_get_spec {T F W : Type} (c : Lazy T F) (d : AsyncLazy W T F)
    (hc : c.state = 2 → ∃ v, c.value = some v)
    (hd : d.state = INIT → ∃ v, d.value = some v) :
    ((c.try_get).1.isSome = true ↔ c.state = 2) ∧
    (c.state ≠ 2 → (c.try_get).1 = none) ∧
    (c.state = 2 → (c.try_get).1 = c.value) ∧
    (c.try_get).2.1 = c ∧ (c.try_get).2.2 = 0 ∧
    ((d.try_get).1.isSome = true ↔ d.state = INIT) ∧
    (d.state ≠ INIT → (d.try_get).1 = none) ∧
    (d.state = INIT → (d.try_get).1 = d.value) ∧
    (d.try_get).2.1 = d ∧ (d.try_get).2.2 = 0 := by
  refine ⟨⟨?_, ?_⟩, fun hne => by simp [Lazy.try_get, hne],
    fun h2 => by simp [Lazy.try_get, h2], rfl, rfl,
    ⟨?_, ?_⟩, fun hne => by simp [AsyncLazy.try_get, hne],
    fun h2 => by simp [AsyncLazy.try_get, h2], rfl, rfl⟩
  · intro hs
    by_cases h2 : c.state = 2
    · exact h2
    · simp [Lazy.try_get, h2] at hs
  · intro h2
    obtain ⟨v, hv⟩ := hc h2
    simp [Lazy.try_get, h2, hv]
  · intro hs
    by_cases h2 : d.state = INIT
    · exact h2
    · simp [AsyncLazy.try_get, h2] at hs
  · intro h2
    obtain ⟨v, hv⟩ := hd h2
    simp [AsyncLazy.try_get, h2, hv]

/-- Witness for `try_get_spec` at already-initialized cells. -/
theorem try_get_spec_w :
    (((Lazy.init 7 : Lazy Nat Unit).try_get).1.isSome = true ↔
      (Lazy.init 7 : Lazy Nat Unit).state = 2) ∧
    ((Lazy.init 7 : Lazy Nat Unit).state ≠ 2 →
      ((Lazy.init 7 : Lazy Nat Unit).try_get).1 = none) ∧
    ((Lazy.init 7 : Lazy Nat Unit).state = 2 →
      ((Lazy.init 7 : Lazy Nat Unit).try_get).1 = (Lazy.init 7 : Lazy Nat Unit).value) ∧
    ((Lazy.init 7 : Lazy Nat Unit).try_get).2.1 = Lazy.init 7 ∧
    ((Lazy.init 7 : Lazy Nat Unit).try_get).2.2 = 0 ∧
    (((AsyncLazy.init 7 : AsyncLazy Unit Nat Unit).try_get).1.isSome = true ↔
      (AsyncLazy.init 7 : AsyncLazy Unit Nat Unit).state = INIT) ∧
    ((AsyncLazy.init 7 : AsyncLazy Unit Nat Unit).state ≠ INIT →
      ((AsyncLazy.init 7 : AsyncLazy Unit Nat Unit).try_get).1 = none) ∧
    ((AsyncLazy.init 7 : AsyncLazy Unit Nat Unit).state = INIT →
      ((AsyncLazy.init 7 : AsyncLazy Unit Nat Unit).try_get).1 =
        (AsyncLazy.init 7 : AsyncLazy Unit Nat Unit).value) ∧
    ((AsyncLazy.init 7 : AsyncLazy Unit Nat Unit).try_get).2.1 = AsyncLazy.init 7 ∧
    ((AsyncLazy.init 7 : AsyncLazy Unit Nat Unit).try_get).2.2 = 0 :=
  try_get_spec (Lazy.init 7) (AsyncLazy.init 7)
    (fun _ => ⟨7, rfl⟩) (fun _ => ⟨7, rfl⟩)

/-- C8: consuming a uniquely-owned cell with `try_into_inner` returns
`Err` carrying the stored (still unrun — the definition never invokes it)
initializer when the state is still Uninit, and `Ok` carrying the stored
value otherwise; on a freshly constructed cell the returned initializer is
exactly the one the cell was built with. -/
theorem lazy_try_into_inner_spec {T F : Type} (run : F → T) (c : Lazy T F)
    (h : SeqReach run c) :
    (c.state = 0 → ∃ g, c.f = some g ∧ c.try_into_inner = TryInto.err g) ∧
    (c.state ≠ 0 → ∃ v, c.value = some v ∧ c.try_into_inner = TryInto.ok v) ∧
    (∀ g : F, (Lazy.new g : Lazy T F).try_into_inner = TryInto.err g) := by
  refine ⟨?_, ?_, fun g => rfl⟩ <;> cases h.state_cases with
  | inl hl =>
      obtain ⟨hst, g, hg⟩ := hl
      first
      | exact fun _ => ⟨g, hg, by simp [Lazy.try_into_inner, hst, hg]⟩
      | exact fun hne => absurd hst hne
  | inr hr =>
      obtain ⟨hst, v, hv⟩ := hr
      first
      | exact fun h0 => by omega
      | exact fun _ => ⟨v, hv, by simp [Lazy.try_into_inner, hst, hv]⟩

/-- Witness for `lazy_try_into_inner_spec` on a fresh cell. -/
theorem lazy_try_into_inner_spec_w :
    ((Lazy.new () : Lazy Nat Unit).state = 0 →
      ∃ g, (Lazy.new () : Lazy Nat Unit).f = some g ∧
        (Lazy.new () : Lazy Nat Unit).try_into_inner = TryInto.err g) ∧
    ((Lazy.new () : Lazy Nat Unit).state ≠ 0 →
      ∃ v, (Lazy.new () : Lazy Nat Unit).value = some v ∧
        (Lazy.new () : Lazy Nat Unit).try_into_inner = TryInto.ok v) ∧
    (∀ g : Unit, (Lazy.new g : Lazy Nat Unit).try_into_inner = TryInto.err g) :=
  lazy_try_into_inner_spec r7 (Lazy.new ()) (SeqReach.new ())

end Laizy
